import Mathlib

/-!
Verification of the cppx JSON serialization subsystem: the Value model, the
recursive-descent parser, the compact and pretty printers, the primitive and
container codecs, and the aggregate and enum registration mechanism generated
by the macros in src/serialization_macros.h.

The aggregate and enum layers are translated from the macro source.  The core
module (Value, Parser, Printer, primitive codecs) is not present under src/,
so those definitions are modelled from the specification, as noted on each.
Machine doubles are modelled as exact rationals; the fractional payload of a
parsed or built Number is always a rational whose denominator divides a power
of ten, which the predicate wfB records.
-/

/-- Error conditions of the serialization engine.  Modelled from the spec:
ParseError carries a human-readable cause, TypeMismatch marks a Value variant
that disagrees with the target type, InvalidEnumValue carries the offending
string (the macro source throws a runtime error built from that string). -/
inductive Err where
  | parseErr (msg : String)
  | typeMismatch
  | invalidEnumValue (s : String)
  deriving Repr, DecidableEq

/-- The in-memory JSON tree.  Modelled from the spec: a tagged union with six
variants; Number keeps the integral versus fractional distinction; Object is
an ordered mapping with insertion order preserved. -/
inductive Json where
  | null
  | bool (b : Bool)
  | numInt (n : Int)
  | numFloat (q : Rat)
  | str (s : String)
  | arr (es : List Json)
  | obj (es : List (String × Json))
  deriving Repr

/-- The opening-brace character, written by code point. -/
def lbrace : Char := Char.ofNat 123

/-- The closing-brace character, written by code point. -/
def rbrace : Char := Char.ofNat 125

/-- Lookup of a key in an ordered object entry list: first entry whose key
matches. -/
def objGet : List (String × Json) → String → Option Json
  | [], _ => none
  | (k, v) :: t, key => if k = key then some v else objGet t key

/-- Upsert into an ordered object entry list: an existing key keeps its
position and receives the new value (last assignment wins), an absent key is
appended.  Modelled from the spec contract of mutating indexed access. -/
def objSet : List (String × Json) → String → Json → List (String × Json)
  | [], key, v => [(key, v)]
  | (k, w) :: t, key, v => if k = key then (k, v) :: t else (k, w) :: objSet t key v

/-- Builder: push an element onto an array Value. -/
def Json.arrPush (a : Json) (v : Json) : Json :=
  match a with
  | .arr es => .arr (es ++ [v])
  | other => other

/-- Builder: whole-key assignment on an object Value (upsert). -/
def Json.setKey (j : Json) (k : String) (v : Json) : Json :=
  match j with
  | .obj es => .obj (objSet es k v)
  | other => other

/-- Typed accessor for strings; fails with TypeMismatch on any other
variant.  Modelled from the spec. -/
def Json.asString : Json → Except Err String
  | .str s => .ok s
  | _ => .error .typeMismatch

/-- Typed accessor for integers; reads either Number payload through the
unified numeric accessor (a fractional payload is truncated toward zero as a
machine cast would).  Fails with TypeMismatch on a non-Number variant.
Modelled from the spec. -/
def Json.asInt : Json → Except Err Int
  | .numInt n => .ok n
  | .numFloat q => .ok (q.num.tdiv (q.den : Int))
  | _ => .error .typeMismatch

/-- Whether the node is the Null variant. -/
def Json.isNull : Json → Bool
  | .null => true
  | _ => false

/-! ## Digits and characters -/

/-- Decimal digit test. -/
def isDigitC (c : Char) : Bool := 48 ≤ c.toNat && c.toNat ≤ 57

/-- Decimal value of a digit character. -/
def digitVal (c : Char) : Nat := c.toNat - 48

/-- Hexadecimal digit test. -/
def isHex (c : Char) : Bool :=
  (48 ≤ c.toNat && c.toNat ≤ 57) || (97 ≤ c.toNat && c.toNat ≤ 102) ||
    (65 ≤ c.toNat && c.toNat ≤ 70)

/-- Hexadecimal value of a digit character. -/
def hexVal (c : Char) : Nat :=
  if 48 ≤ c.toNat && c.toNat ≤ 57 then c.toNat - 48
  else if 97 ≤ c.toNat && c.toNat ≤ 102 then c.toNat - 87
  else if 65 ≤ c.toNat && c.toNat ≤ 70 then c.toNat - 55
  else 0

/-- Little-endian decimal digits of a natural number, fuel-driven so that it
reduces by iota in the kernel. -/
def natDigitsRev : Nat → Nat → List Nat
  | 0, _ => []
  | fuel + 1, n => if n = 0 then [] else n % 10 :: natDigitsRev fuel (n / 10)

/-- Decimal digit characters of a natural number, most significant first. -/
def natDigits (n : Nat) : List Char :=
  if n = 0 then ['0'] else ((natDigitsRev (n + 1) n).reverse.map Nat.digitChar)

/-- Fold decimal digit characters into a natural number, most significant
first, starting from an accumulator. -/
def digitsToNat (acc : Nat) (ds : List Char) : Nat :=
  ds.foldl (fun a c => 10 * a + digitVal c) acc

/-- Whitespace characters skippable between JSON tokens. -/
def isWS (c : Char) : Bool := c = ' ' || c = '\t' || c = '\n' || c = '\r'

/-- Drop leading whitespace. -/
def skipWS (s : List Char) : List Char := s.dropWhile isWS

/-! ## Printer.  Modelled from the spec: compact form has no insignificant
whitespace; pretty form indents each nesting level, one entry per line, the
closing bracket at the parent indent; strings are re-escaped; integral
Numbers print as integers, fractional ones in decimal form. -/

/-- JSON escaping of one character: quote, backslash and control characters
are escaped, anything else passes through. -/
def escChar (c : Char) : List Char :=
  if c = '"' then ['\\', '"']
  else if c = '\\' then ['\\', '\\']
  else if c = Char.ofNat 8 then ['\\', 'b']
  else if c = Char.ofNat 12 then ['\\', 'f']
  else if c = '\n' then ['\\', 'n']
  else if c = '\r' then ['\\', 'r']
  else if c = '\t' then ['\\', 't']
  else if c.toNat < 32 then
    ['\\', 'u', '0', '0', Nat.digitChar (c.toNat / 16), Nat.digitChar (c.toNat % 16)]
  else [c]

/-- JSON escaping of a character sequence. -/
def escStr (s : List Char) : List Char := s.foldr (fun c acc => escChar c ++ acc) []

/-- Smallest exponent in range such that the denominator divides that power
of ten (falls back to the denominator itself, unreachable on decimal-safe
denominators). -/
def minExp (den : Nat) : Nat :=
  (((List.range (den + 1)).find? (fun k => decide (den ∣ 10 ^ k)))).getD den

/-- Print a fractional Number: sign, integer part, decimal point, fraction
part, with at least one fraction digit so the text reads back as
fractional. -/
def printFloat (q : Rat) : List Char :=
  let K := max (minExp q.den) 1
  let n := q.num.natAbs * 10 ^ K / q.den
  let ds := List.leftpad (K + 1) '0' (natDigits n)
  (if q.num < 0 then ['-'] else []) ++ ds.take (ds.length - K) ++ '.' :: ds.drop (ds.length - K)

/-- Print an integral Number. -/
def printInt (n : Int) : List Char :=
  (if n < 0 then ['-'] else []) ++ natDigits n.natAbs

/-- Layout gaps inserted by the printer at the token boundaries where the
grammar allows whitespace: after an opening bracket, after an entry
separator, before a closing bracket (all by nesting depth), and after the
key-value colon. -/
structure Gaps where
  openG : Nat → List Char
  sepG : Nat → List Char
  closeG : Nat → List Char
  colonG : List Char

/-- Compact layout: no gaps anywhere. -/
def compactGaps : Gaps := ⟨fun _ => [], fun _ => [], fun _ => [], []⟩

/-- A run of spaces. -/
def spaces (n : Nat) : List Char := List.replicate n ' '

/-- Pretty layout for a given indent width: newline plus depth-proportional
indentation around entries, a single space after the colon. -/
def prettyGaps (w : Nat) : Gaps :=
  ⟨fun d => '\n' :: spaces (w * d), fun d => '\n' :: spaces (w * d),
   fun d => '\n' :: spaces (w * d), [' ']⟩

mutual

/-- Print a Value under a layout at a nesting depth. -/
def printG (g : Gaps) : Nat → Json → List Char
  | _, .null => ['n', 'u', 'l', 'l']
  | _, .bool true => ['t', 'r', 'u', 'e']
  | _, .bool false => ['f', 'a', 'l', 's', 'e']
  | _, .numInt n => printInt n
  | _, .numFloat q => printFloat q
  | _, .str s => '"' :: (escStr s.data ++ ['"'])
  | _, .arr [] => ['[', ']']
  | d, .arr (e :: es) =>
    '[' :: (g.openG (d + 1) ++ printItemsG g (d + 1) (e :: es) ++ g.closeG d ++ [']'])
  | _, .obj [] => [lbrace, rbrace]
  | d, .obj (kv :: es) =>
    lbrace :: (g.openG (d + 1) ++ printEntriesG g (d + 1) (kv :: es) ++ g.closeG d ++ [rbrace])

/-- Print array elements, separated by comma plus layout gap. -/
def printItemsG (g : Gaps) : Nat → List Json → List Char
  | _, [] => []
  | d, [e] => printG g d e
  | d, e :: es => printG g d e ++ ',' :: (g.sepG d ++ printItemsG g d es)

/-- Print object entries in insertion order: quoted escaped key, colon, gap,
value, separated by comma plus layout gap. -/
def printEntriesG (g : Gaps) : Nat → List (String × Json) → List Char
  | _, [] => []
  | d, [(k, v)] => '"' :: (escStr k.data ++ '"' :: ':' :: (g.colonG ++ printG g d v))
  | d, (k, v) :: es =>
    ('"' :: (escStr k.data ++ '"' :: ':' :: (g.colonG ++ printG g d v))) ++
      ',' :: (g.sepG d ++ printEntriesG g d es)

end

/-- Compact textual form, as a character list. -/
def dumpChars (v : Json) : List Char := printG compactGaps 0 v

/-- Compact textual form: the canonical minimal JSON text of a Value. -/
def Json.dump (v : Json) : String := String.mk (dumpChars v)

/-- Textual form with an indent argument: zero selects the compact form, a
positive width selects the pretty form. -/
def Json.dumpIndent (w : Nat) (v : Json) : String :=
  if w = 0 then v.dump else String.mk (printG (prettyGaps w) 0 v)

/-! ## Parser.  Modelled from the spec: strict JSON grammar, recursive
descent with one token of lookahead, whitespace skippable between tokens,
no trailing commas, object keys must be strings, the whole input must be
consumed.  Fuel-driven so that every definition is structurally recursive
and reduces in the kernel; the entry point supplies fuel exceeding the
input length, which the sufficiency lemmas show is never exhausted. -/

/-- Decode a single-character escape. -/
def escDecode (c : Char) : Option Char :=
  if c = '"' then some '"'
  else if c = '\\' then some '\\'
  else if c = '/' then some '/'
  else if c = 'b' then some (Char.ofNat 8)
  else if c = 'f' then some (Char.ofNat 12)
  else if c = 'n' then some '\n'
  else if c = 'r' then some '\r'
  else if c = 't' then some '\t'
  else none

mutual

/-- Parse the body of a string literal after the opening quote, up to and
including the closing quote; rejects unescaped control characters and
unterminated strings. -/
def parseStrBody : List Char → Except Err (List Char × List Char)
  | [] => .error (.parseErr "unterminated string")
  | c :: r =>
    if c = '"' then .ok ([], r)
    else if c = '\\' then parseEsc r
    else if c.toNat < 32 then .error (.parseErr "control character in string")
    else
      match parseStrBody r with
      | .ok (cs, rest) => .ok (c :: cs, rest)
      | .error e => .error e

/-- Parse the remainder of a string literal after a backslash. -/
def parseEsc : List Char → Except Err (List Char × List Char)
  | 'u' :: h1 :: h2 :: h3 :: h4 :: r =>
    if isHex h1 && isHex h2 && isHex h3 && isHex h4 then
      match parseStrBody r with
      | .ok (cs, rest) =>
        .ok (Char.ofNat (((hexVal h1 * 16 + hexVal h2) * 16 + hexVal h3) * 16 + hexVal h4) :: cs,
          rest)
      | .error e => .error e
    else .error (.parseErr "invalid unicode escape")
  | c :: r =>
    match escDecode c with
    | some ec =>
      match parseStrBody r with
      | .ok (cs, rest) => .ok (ec :: cs, rest)
      | .error e => .error e
    | none => .error (.parseErr "invalid escape")
  | [] => .error (.parseErr "unterminated string")

end

/-- Build the rational value of a fractional literal from its sign, mantissa
digits, fraction length and exponent. -/
def mkFloat (neg : Bool) (mant : Nat) (fracLen : Nat) (e : Int) : Rat :=
  Rat.divInt ((if neg then -(mant : Int) else (mant : Int)) * 10 ^ e.toNat)
    (10 ^ (fracLen + (-e).toNat))

/-- Integral value of an integer literal from its sign and digits. -/
def intOfParts (neg : Bool) (m : Nat) : Int := if neg then -(m : Int) else (m : Int)

/-- Split an optional leading minus sign off a numeric literal. -/
def splitSign (s : List Char) : Bool × List Char :=
  match s with
  | [] => (false, [])
  | c :: t => if c = '-' then (true, t) else (false, c :: t)

/-- Split an optional sign off an exponent part. -/
def splitSignExp (s : List Char) : Bool × List Char :=
  match s with
  | [] => (false, [])
  | c :: t => if c = '-' then (true, t) else if c = '+' then (false, t) else (false, c :: t)

/-- Parse an exponent part after the letter e: optional sign, then digits. -/
def parseExpPart (s : List Char) : Except Err (Int × List Char) :=
  let p := splitSignExp s
  let es := p.2.takeWhile isDigitC
  if es.isEmpty then .error (.parseErr "invalid number")
  else .ok (intOfParts p.1 (digitsToNat 0 es), p.2.dropWhile isDigitC)

/-- Finish a numeric literal: an optional exponent follows; without a
fraction or exponent the literal is integral, otherwise fractional. -/
def finishNum (isFloat : Bool) (neg : Bool) (mant : Nat) (fl : Nat) :
    List Char → Except Err (Json × List Char)
  | [] =>
    .ok (if isFloat then .numFloat (mkFloat neg mant fl 0) else .numInt (intOfParts neg mant), [])
  | c :: t =>
    if c = 'e' || c = 'E' then
      match parseExpPart t with
      | .ok (e, r4) => .ok (.numFloat (mkFloat neg mant fl e), r4)
      | .error er => .error er
    else
      .ok (if isFloat then .numFloat (mkFloat neg mant fl 0) else .numInt (intOfParts neg mant),
        c :: t)

/-- Parse a numeric literal: optional minus, digits, optional fraction,
optional exponent; the fractional or exponent part makes the Number
fractional. -/
def parseNum (s : List Char) : Except Err (Json × List Char) :=
  let p := splitSign s
  let ds := p.2.takeWhile isDigitC
  let r1 := p.2.dropWhile isDigitC
  if ds.isEmpty then .error (.parseErr "invalid number")
  else
    match r1 with
    | [] => finishNum false p.1 (digitsToNat 0 ds) 0 []
    | c1 :: r2 =>
      if c1 = '.' then
        let fs := r2.takeWhile isDigitC
        if fs.isEmpty then .error (.parseErr "invalid number")
        else
          finishNum true p.1 (digitsToNat 0 (ds ++ fs)) fs.length (r2.dropWhile isDigitC)
      else finishNum false p.1 (digitsToNat 0 ds) 0 (c1 :: r2)

/-- Parse the elements of a nonempty array after the opening bracket and
leading gap, via the value parser passed in. -/
def parseArr (pv : List Char → Except Err (Json × List Char)) :
    Nat → List Char → Except Err (List Json × List Char)
  | 0, _ => .error (.parseErr "out of fuel")
  | fuel + 1, s =>
    match pv s with
    | .error e => .error e
    | .ok (v, r1) =>
      match skipWS r1 with
      | ']' :: r2 => .ok ([v], r2)
      | ',' :: r2 =>
        match parseArr pv fuel (skipWS r2) with
        | .ok (vs, r3) => .ok (v :: vs, r3)
        | .error e => .error e
      | _ => .error (.parseErr "expected comma or closing bracket")

/-- Parse the entries of a nonempty object after the opening brace and
leading gap, via the value parser passed in; entries accumulate by upsert so
a repeated key keeps its position and the last assignment wins. -/
def parseObjRest (pv : List Char → Except Err (Json × List Char)) :
    Nat → List Char → List (String × Json) → Except Err (List (String × Json) × List Char)
  | 0, _, _ => .error (.parseErr "out of fuel")
  | fuel + 1, s, acc =>
    match s with
    | '"' :: r =>
      match parseStrBody r with
      | .error e => .error e
      | .ok (kcs, r1) =>
        match skipWS r1 with
        | ':' :: r2 =>
          match pv (skipWS r2) with
          | .error e => .error e
          | .ok (v, r3) =>
            match skipWS r3 with
            | c4 :: r4 =>
              if c4 = rbrace then .ok (objSet acc (String.mk kcs) v, r4)
              else if c4 = ',' then parseObjRest pv fuel (skipWS r4) (objSet acc (String.mk kcs) v)
              else .error (.parseErr "expected comma or closing brace")
            | [] => .error (.parseErr "unexpected end of input")
        | _ => .error (.parseErr "expected colon after key")
    | _ => .error (.parseErr "expected string key")

/-- Finish the literal null after its first character. -/
def parseNullLit : List Char → Except Err (Json × List Char)
  | 'u' :: 'l' :: 'l' :: r2 => .ok (.null, r2)
  | _ => .error (.parseErr "invalid literal")

/-- Finish the literal true after its first character. -/
def parseTrueLit : List Char → Except Err (Json × List Char)
  | 'r' :: 'u' :: 'e' :: r2 => .ok (.bool true, r2)
  | _ => .error (.parseErr "invalid literal")

/-- Finish the literal false after its first character. -/
def parseFalseLit : List Char → Except Err (Json × List Char)
  | 'a' :: 'l' :: 's' :: 'e' :: r2 => .ok (.bool false, r2)
  | _ => .error (.parseErr "invalid literal")

/-- Parse a single JSON value at the front of the input (leading whitespace
already skipped), returning it with the unconsumed tail. -/
def parseVal : Nat → List Char → Except Err (Json × List Char)
  | 0, _ => .error (.parseErr "out of fuel")
  | fuel + 1, s =>
    match s with
    | [] => .error (.parseErr "unexpected end of input")
    | c :: r =>
      if c = '-' || isDigitC c then parseNum (c :: r)
      else if c = 'n' then parseNullLit r
      else if c = 't' then parseTrueLit r
      else if c = 'f' then parseFalseLit r
      else if c = '"' then
        match parseStrBody r with
        | .ok (cs, r2) => .ok (.str (String.mk cs), r2)
        | .error e => .error e
      else if c = '[' then
        match skipWS r with
        | ']' :: r2 => .ok (.arr [], r2)
        | r1 =>
          match parseArr (parseVal fuel) fuel r1 with
          | .ok (vs, r2) => .ok (.arr vs, r2)
          | .error e => .error e
      else if c = lbrace then
        match skipWS r with
        | [] => .error (.parseErr "unexpected end of input")
        | c2 :: r2 =>
          if c2 = rbrace then .ok (.obj [], r2)
          else
            match parseObjRest (parseVal fuel) fuel (c2 :: r2) [] with
            | .ok (es, r3) => .ok (.obj es, r3)
            | .error e => .error e
      else .error (.parseErr "unexpected character")

/-- Parse a complete JSON document: one value, with leading and trailing
whitespace allowed and nothing else after it. -/
def Json.parse (t : String) : Except Err Json :=
  let s0 := skipWS t.data
  match parseVal (s0.length + 1) s0 with
  | .error e => .error e
  | .ok (v, r) =>
    match skipWS r with
    | [] => .ok v
    | _ => .error (.parseErr "trailing characters after value")

/-! ## Serializer registry.  A codec pairs to_json with from_json; built-in
codecs for primitives and the container combinators are modelled from the
spec.  The aggregate and enum codecs below are translated from the
registration macros in src/serialization_macros.h. -/

/-- A registered codec for one type. -/
structure Codec (α : Type) where
  toJson : α → Json
  fromJson : Json → Except Err α

/-- Built-in codec for booleans.  Modelled from the spec. -/
def boolCodec : Codec Bool :=
  ⟨fun b => .bool b,
   fun j => match j with
     | .bool b => .ok b
     | _ => .error .typeMismatch⟩

/-- Built-in codec for integers.  Modelled from the spec. -/
def intCodec : Codec Int := ⟨fun n => .numInt n, Json.asInt⟩

/-- Built-in codec for floating point, modelled over exact rationals.
Modelled from the spec. -/
def floatCodec : Codec Rat :=
  ⟨fun q => .numFloat q,
   fun j => match j with
     | .numFloat q => .ok q
     | .numInt n => .ok (n : Rat)
     | _ => .error .typeMismatch⟩

/-- Built-in codec for text.  Modelled from the spec. -/
def strCodec : Codec String := ⟨fun s => .str s, Json.asString⟩

/-- Apply a fallible element decoder across a list, first failure aborting. -/
def exceptMapList {α β : Type} (f : α → Except Err β) : List α → Except Err (List β)
  | [] => .ok []
  | a :: t =>
    match f a with
    | .error e => .error e
    | .ok b =>
      match exceptMapList f t with
      | .error e => .error e
      | .ok bs => .ok (b :: bs)

/-- Apply a fallible value decoder across object entries, keeping keys and
order, first failure aborting. -/
def exceptMapEntries {α : Type} (f : Json → Except Err α) :
    List (String × Json) → Except Err (List (String × α))
  | [] => .ok []
  | (k, jv) :: t =>
    match f jv with
    | .error e => .error e
    | .ok b =>
      match exceptMapEntries f t with
      | .error e => .error e
      | .ok bs => .ok ((k, b) :: bs)

/-- Sequence-container combinator: element codec applied per element, order
preserved; a non-array Value is a TypeMismatch.  Modelled from the spec. -/
def vecCodec {α : Type} (c : Codec α) : Codec (List α) :=
  ⟨fun xs => .arr (xs.map c.toJson),
   fun j => match j with
     | .arr es => exceptMapList c.fromJson es
     | _ => .error .typeMismatch⟩

/-- String-keyed mapping combinator over an insertion-ordered association
list: key-for-key with order preserved; a non-object Value is a
TypeMismatch.  Modelled from the spec. -/
def mapCodec {α : Type} (c : Codec α) : Codec (List (String × α)) :=
  ⟨fun m => .obj (m.map (fun p => (p.1, c.toJson p.2))),
   fun j => match j with
     | .obj es => exceptMapEntries c.fromJson es
     | _ => .error .typeMismatch⟩

/-- Optional combinator: a present value serializes as the inner value, an
absent one as Null; Null reads back as absent, anything else goes through
the inner codec.  Modelled from the spec. -/
def optCodec {α : Type} (c : Codec α) : Codec (Option α) :=
  ⟨fun x => match x with
     | some a => c.toJson a
     | none => .null,
   fun j =>
     if j.isNull then .ok none
     else match c.fromJson j with
       | .ok a => .ok (some a)
       | .error e => .error e⟩

/-! ## Enum registration, translated from CPPX_ENUM_SERIALIZABLE_N: the
generated to-string function switches over the registered variants in order
with a default case returning the text Unknown; the generated from-string
function compares against the registered names in order and otherwise fails
carrying the offending string. -/

/-- Variant value to registered name; an unregistered value falls through
the switch to the default case. -/
def enumToString {E : Type} [DecidableEq E] (variants : List (String × E)) (v : E) : String :=
  match variants.find? (fun p => decide (p.2 = v)) with
  | some p => p.1
  | none => "Unknown"

/-- Registered name to variant value by exact string match in registration
order; no match is an InvalidEnumValue carrying the offending string. -/
def enumFromString {E : Type} (variants : List (String × E)) (s : String) : Except Err E :=
  match variants.find? (fun p => decide (p.1 = s)) with
  | some p => .ok p.2
  | none => .error (.invalidEnumValue s)

/-- The codec generated for a registered enum type: serialize through the
to-string function into a JSON string; deserialize through the string
accessor and the from-string function. -/
def enumCodec {E : Type} [DecidableEq E] (variants : List (String × E)) : Codec E :=
  ⟨fun v => .str (enumToString variants v),
   fun j => match j.asString with
     | .ok s => enumFromString variants s
     | .error e => .error e⟩

/-! ## Aggregate registration, translated from CPPX_SERIALIZABLE_N with its
per-field helpers CPPX_SER_FIELD and CPPX_DESER_FIELD: to_json starts from
an empty object and assigns each declared field in order under its declared
name; from_json starts from a default-constructed value and, for each
declared field in order, assigns it only when the object contains that key,
through the field codec. -/

/-- One declared field of a registered aggregate: its name, its serializer
applied to the current field value, and its deserialize-and-assign step. -/
structure FieldDescriptor (T : Type) where
  name : String
  ser : T → Json
  deser : Json → T → Except Err T

/-- Build a field entry from a codec, a getter and a setter. -/
def mkField {T F : Type} (c : Codec F) (nm : String) (get : T → F) (set : T → F → T) :
    FieldDescriptor T :=
  ⟨nm, fun t => c.toJson (get t),
   fun j t => match c.fromJson j with
     | .ok x => .ok (set t x)
     | .error e => .error e⟩

/-- Generated to_json: sequential keyed assignment of every declared field
into a fresh object, in declaration order (CPPX_SER_FIELD). -/
def aggToJson {T : Type} (fields : List (FieldDescriptor T)) (v : T) : Json :=
  .obj (fields.foldl (fun es f => objSet es f.name (f.ser v)) [])

/-- Field-by-field population of a default-constructed value: a field whose
key is present is assigned through its codec, a field whose key is absent is
skipped; a failing assignment aborts (CPPX_DESER_FIELD). -/
def aggFromFields {T : Type} : List (FieldDescriptor T) → List (String × Json) → T → Except Err T
  | [], _, t => .ok t
  | f :: fs, es, t =>
    match objGet es f.name with
    | none => aggFromFields fs es t
    | some jv =>
      match f.deser jv t with
      | .ok t2 => aggFromFields fs es t2
      | .error e => .error e

/-- Generated from_json: requires an object Value, then populates a
default-constructed value field by field. -/
def aggFromJson {T : Type} (fields : List (FieldDescriptor T)) (dflt : T) (j : Json) : Except Err T :=
  match j with
  | .obj es => aggFromFields fields es dflt
  | _ => .error .typeMismatch

/-- The codec generated for a registered aggregate type. -/
def aggCodec {T : Type} (fields : List (FieldDescriptor T)) (dflt : T) : Codec T :=
  ⟨aggToJson fields, aggFromJson fields dflt⟩

/-- Serialize to text, compact form (to_json_string). -/
def toJsonString {α : Type} (c : Codec α) (v : α) : String := Json.dump (c.toJson v)

/-- Serialize to text with an indent width (to_json_string with indent). -/
def toJsonStringIndent {α : Type} (c : Codec α) (w : Nat) (v : α) : String :=
  Json.dumpIndent w (c.toJson v)

/-- Parse text and deserialize (from_json_string). -/
def fromJsonString {α : Type} (c : Codec α) (t : String) : Except Err α :=
  match Json.parse t with
  | .ok j => c.fromJson j
  | .error e => .error e

/-! ## Registered example types, as declared in the test and demo sources:
Point with CPPX_SERIALIZABLE_2, Person with CPPX_SERIALIZABLE_3, the
Priority enum with CPPX_ENUM_SERIALIZABLE_3, Task with
CPPX_SERIALIZABLE_3. -/

/-- The two-field test aggregate. -/
structure Point where
  x : Int
  y : Int
  deriving Repr, DecidableEq

/-- Value initialization of Point, as in the generated from_json. -/
def Point.init : Point := ⟨0, 0⟩

/-- The registered field list of Point, in declaration order. -/
def pointFields : List (FieldDescriptor Point) :=
  [mkField intCodec "x" (fun p => p.x) (fun p v => ⟨v, p.y⟩),
   mkField intCodec "y" (fun p => p.y) (fun p v => ⟨p.x, v⟩)]

/-- The generated codec of Point. -/
def pointCodec : Codec Point := aggCodec pointFields Point.init

/-- The three-field test aggregate. -/
structure Person where
  name : String
  age : Int
  hobbies : List String
  deriving Repr, DecidableEq

/-- Value initialization of Person. -/
def Person.init : Person := ⟨"", 0, []⟩

/-- The registered field list of Person, in declaration order. -/
def personFields : List (FieldDescriptor Person) :=
  [mkField strCodec "name" (fun p => p.name) (fun p v => ⟨v, p.age, p.hobbies⟩),
   mkField intCodec "age" (fun p => p.age) (fun p v => ⟨p.name, v, p.hobbies⟩),
   mkField (vecCodec strCodec) "hobbies" (fun p => p.hobbies) (fun p v => ⟨p.name, p.age, v⟩)]

/-- The generated codec of Person. -/
def personCodec : Codec Person := aggCodec personFields Person.init

/-- The Priority enum over its underlying integer type, with the three
registered variants Low, Medium, High. -/
def priorityVariants : List (String × Int) := [("Low", 0), ("Medium", 1), ("High", 2)]

/-- The generated codec of Priority. -/
def priorityCodec : Codec Int := enumCodec priorityVariants

/-- The test aggregate holding an optional field and an enum field. -/
structure TaskRec where
  title : String
  priority : Int
  assignee : Option String
  deriving Repr, DecidableEq

/-- Value initialization of Task. -/
def TaskRec.init : TaskRec := ⟨"", 0, none⟩

/-- The registered field list of Task, in declaration order. -/
def taskFields : List (FieldDescriptor TaskRec) :=
  [mkField strCodec "title" (fun p => p.title) (fun p v => ⟨v, p.priority, p.assignee⟩),
   mkField priorityCodec "priority" (fun p => p.priority) (fun p v => ⟨p.title, v, p.assignee⟩),
   mkField (optCodec strCodec) "assignee" (fun p => p.assignee)
     (fun p v => ⟨p.title, p.priority, v⟩)]

/-- The generated codec of Task. -/
def taskCodec : Codec TaskRec := aggCodec taskFields TaskRec.init

/-! ## Well-formedness of Value trees, the invariant of every tree the
Parser or the builder operations produce: every fractional payload has a
decimal-safe denominator and every object has pairwise distinct keys. -/

/-- Whether an entry list already holds a key. -/
def hasKeyB (es : List (String × Json)) (k : String) : Bool :=
  es.any (fun p => decide (p.1 = k))

mutual

/-- Well-formed Value tree. -/
def wfB : Json → Bool
  | .null => true
  | .bool _ => true
  | .numInt _ => true
  | .str _ => true
  | .numFloat q => decide (q.den ∣ 10 ^ q.den)
  | .arr es => wfListB es
  | .obj es => wfObjB es

/-- Well-formed element list. -/
def wfListB : List Json → Bool
  | [] => true
  | e :: t => wfB e && wfListB t

/-- Well-formed entry list: keys pairwise distinct, values well-formed. -/
def wfObjB : List (String × Json) → Bool
  | [] => true
  | (k, v) :: t => !(hasKeyB t k) && wfB v && wfObjB t

end

mutual

/-- Fuel cost of parsing one printed Value. -/
def fsize : Json → Nat
  | .arr es => 1 + fsizeList es
  | .obj es => 1 + fsizeObj es
  | _ => 1

/-- Fuel cost of parsing printed array elements. -/
def fsizeList : List Json → Nat
  | [] => 0
  | e :: t => 1 + fsize e + fsizeList t

/-- Fuel cost of parsing printed object entries. -/
def fsizeObj : List (String × Json) → Nat
  | [] => 0
  | (_, v) :: t => 1 + fsize v + fsizeObj t

end

/-- Characters that may legitimately follow a printed value: a separator, a
closing bracket or brace, or whitespace. -/
def stopChar (c : Char) : Bool := c = ',' || c = ']' || c = rbrace || isWS c

/-- The continuation after a printed value is empty or starts with a stop
character, so greedy number parsing cannot run past the value. -/
def goodRestB : List Char → Bool
  | [] => true
  | c :: _ => stopChar c

/-- A layout whose every gap consists of whitespace only. -/
def gapsWS (g : Gaps) : Prop :=
  (∀ d, (g.openG d).all isWS = true) ∧ (∀ d, (g.sepG d).all isWS = true) ∧
    (∀ d, (g.closeG d).all isWS = true) ∧ g.colonG.all isWS = true

/-- Sequential upsert of a batch of entries, as the object parser performs
while accumulating. -/
def objSetAll (acc : List (String × Json)) (es : List (String × Json)) :
    List (String × Json) :=
  es.foldl (fun a p => objSet a p.1 p.2) acc

/-! ## Induction principle over the nested Value tree -/

/-- Values producible through the builder API: primitive constructors (a
double being a dyadic rational), the empty array and object, element push
and whole-key assignment.  Modelled from the spec. -/
inductive Built : Json → Prop
  | null : Built .null
  | bool (b : Bool) : Built (.bool b)
  | int (n : Int) : Built (.numInt n)
  | float (q : Rat) (k : Nat) (h : q.den ∣ 2 ^ k) : Built (.numFloat q)
  | str (s : String) : Built (.str s)
  | arrNil : Built (.arr [])
  | arrPush (es : List Json) (v : Json) (ha : Built (.arr es)) (hv : Built v) :
      Built ((Json.arr es).arrPush v)
  | objNil : Built (.obj [])
  | setKey (es : List (String × Json)) (k : String) (v : Json)
      (ho : Built (.obj es)) (hv : Built v) : Built ((Json.obj es).setKey k v)

/-- Structural induction over Json with membership hypotheses for the
children of composite nodes. -/
theorem Json.strongInd (P : Json → Prop)
    (hnull : P .null) (hbool : ∀ b, P (.bool b)) (hnum : ∀ n, P (.numInt n))
    (hflt : ∀ q, P (.numFloat q)) (hstr : ∀ s, P (.str s))
    (harr : ∀ es, (∀ e ∈ es, P e) → P (.arr es))
    (hobj : ∀ es, (∀ p ∈ es, P p.2) → P (.obj es)) : ∀ v, P v :=
  Json.rec (motive_1 := P) (motive_2 := fun es => ∀ e ∈ es, P e)
    (motive_3 := fun es => ∀ p ∈ es, P p.2) (motive_4 := fun p => P p.2)
    hnull hbool hnum hflt hstr harr hobj
    (fun e h => absurd h (List.not_mem_nil e))
    (fun hd tl hh ht e he => by
      rcases List.mem_cons.mp he with h | h
      · exact h ▸ hh
      · exact ht e h)
    (fun p h => absurd h (List.not_mem_nil p))
    (fun hd tl hh ht p hp => by
      rcases List.mem_cons.mp hp with h | h
      · exact h ▸ hh
      · exact ht p h)
    (fun _ v hv => hv)

/-! ## Character and digit lemmas -/

theorem charToNat_inj {c d : Char} (h : c.toNat = d.toNat) : c = d := by
  have h2 := congrArg Char.ofNat h
  rwa [Char.ofNat_toNat, Char.ofNat_toNat] at h2

theorem digitVal_digitChar : ∀ d < 10, digitVal (Nat.digitChar d) = d := by decide

theorem isDigitC_digitChar : ∀ d < 10, isDigitC (Nat.digitChar d) = true := by decide

theorem hexVal_digitChar : ∀ d < 16, hexVal (Nat.digitChar d) = d := by decide

theorem isHex_digitChar : ∀ d < 16, isHex (Nat.digitChar d) = true := by decide

theorem natDigitsRev_eq : ∀ (n fuel : Nat), n ≤ fuel → natDigitsRev fuel n = Nat.digits 10 n := by
  intro n
  induction n using Nat.strong_induction_on with
  | _ n ih =>
    intro fuel h
    match fuel with
    | 0 =>
      have h0 : n = 0 := by omega
      subst h0
      simp [natDigitsRev]
    | fuel + 1 =>
      by_cases h0 : n = 0
      · subst h0
        simp [natDigitsRev]
      · have hdiv : n / 10 < n := Nat.div_lt_self (Nat.pos_of_ne_zero h0) (by norm_num)
        rw [natDigitsRev, if_neg h0, ih (n / 10) hdiv fuel (by omega),
          Nat.digits_def' (by norm_num : 1 < 10) (Nat.pos_of_ne_zero h0)]

theorem natDigits_eq {n : Nat} (h : n ≠ 0) :
    natDigits n = (Nat.digits 10 n).reverse.map Nat.digitChar := by
  rw [natDigits, if_neg h, natDigitsRev_eq n (n + 1) (by omega)]

theorem natDigits_all (n : Nat) : (natDigits n).all isDigitC = true := by
  by_cases h : n = 0
  · subst h; decide
  · rw [natDigits_eq h, List.all_eq_true]
    intro c hc
    rw [List.mem_map] at hc
    obtain ⟨d, hd, rfl⟩ := hc
    exact isDigitC_digitChar d (Nat.digits_lt_base (by norm_num) (List.mem_reverse.mp hd))

theorem natDigits_ne_nil (n : Nat) : natDigits n ≠ [] := by
  by_cases h : n = 0
  · subst h; decide
  · rw [natDigits_eq h]
    simp [Nat.digits_ne_nil_iff_ne_zero.mpr h]

theorem digitsToNat_append (acc : Nat) (a b : List Char) :
    digitsToNat acc (a ++ b) = digitsToNat (digitsToNat acc a) b := by
  simp [digitsToNat, List.foldl_append]

theorem digitsToNat_acc (l : List Char) :
    ∀ acc, digitsToNat acc l = acc * 10 ^ l.length + digitsToNat 0 l := by
  induction l with
  | nil => intro acc; simp [digitsToNat]
  | cons c t ih =>
    intro acc
    show digitsToNat (10 * acc + digitVal c) t =
      acc * 10 ^ (c :: t).length + digitsToNat (10 * 0 + digitVal c) t
    rw [ih (10 * acc + digitVal c), ih (10 * 0 + digitVal c)]
    simp only [List.length_cons, pow_succ]
    ring

theorem digitsToNat_ofDigits :
    ∀ (l : List Nat), (∀ d ∈ l, d < 10) →
      digitsToNat 0 (l.reverse.map Nat.digitChar) = Nat.ofDigits 10 l := by
  intro l
  induction l with
  | nil => intro _; simp [digitsToNat, Nat.ofDigits_nil]
  | cons d t ih =>
    intro h
    rw [List.reverse_cons, List.map_append, digitsToNat_append,
      ih (fun x hx => h x (List.mem_cons_of_mem _ hx))]
    show 10 * Nat.ofDigits 10 t + digitVal (Nat.digitChar d) = Nat.ofDigits 10 (d :: t)
    rw [digitVal_digitChar d (h d (List.mem_cons_self d t)), Nat.ofDigits_cons]
    ring

theorem digitsToNat_natDigits (n : Nat) : digitsToNat 0 (natDigits n) = n := by
  by_cases h : n = 0
  · subst h; decide
  · rw [natDigits_eq h,
      digitsToNat_ofDigits _ (fun d hd => Nat.digits_lt_base (by norm_num) hd),
      Nat.ofDigits_digits]

theorem digitsToNat_zeros :
    ∀ (z : Nat) (l : List Char), digitsToNat 0 (List.replicate z '0' ++ l) = digitsToNat 0 l := by
  intro z
  induction z with
  | zero => intro l; simp
  | succ z ih =>
    intro l
    rw [List.replicate_succ, List.cons_append]
    show digitsToNat (10 * 0 + digitVal '0') (List.replicate z '0' ++ l) = digitsToNat 0 l
    have h0 : 10 * 0 + digitVal '0' = 0 := by decide
    rw [h0, ih l]

/-! ## takeWhile, dropWhile and whitespace lemmas -/

theorem takeWhile_exact {p : Char → Bool} :
    ∀ (ds rest : List Char), ds.all p = true → (∀ c, rest.head? = some c → p c = false) →
      (ds ++ rest).takeWhile p = ds ∧ (ds ++ rest).dropWhile p = rest := by
  intro ds
  induction ds with
  | nil =>
    intro rest _ h2
    cases rest with
    | nil => simp
    | cons c t =>
      have hc := h2 c rfl
      simp [List.takeWhile_cons, List.dropWhile_cons, hc]
  | cons d t ih =>
    intro rest h1 h2
    rw [List.all_cons, Bool.and_eq_true] at h1
    have step := ih rest h1.2 h2
    simp [List.cons_append, List.takeWhile_cons, List.dropWhile_cons, h1.1, step.1, step.2]

theorem skipWS_ws_append :
    ∀ (g s : List Char), g.all isWS = true → skipWS (g ++ s) = skipWS s := by
  intro g
  induction g with
  | nil => intro s _; rfl
  | cons c t ih =>
    intro s h
    rw [List.all_cons, Bool.and_eq_true] at h
    rw [List.cons_append]
    show List.dropWhile isWS (c :: (t ++ s)) = skipWS s
    rw [List.dropWhile_cons, if_pos h.1]
    exact ih s h.2

theorem skipWS_cons_nonws {c : Char} (h : isWS c = false) (r : List Char) :
    skipWS (c :: r) = c :: r := by
  simp [skipWS, List.dropWhile_cons, h]

theorem stopChar_cases {c : Char} (h : stopChar c = true) :
    c = ',' ∨ c = ']' ∨ c = rbrace ∨ c = ' ' ∨ c = '\t' ∨ c = '\n' ∨ c = '\r' := by
  simp only [stopChar, isWS, Bool.or_eq_true, decide_eq_true_eq] at h
  tauto

theorem stopChar_not_digit {c : Char} (h : stopChar c = true) : isDigitC c = false := by
  rcases stopChar_cases h with rfl | rfl | rfl | rfl | rfl | rfl | rfl <;> decide

theorem stopChar_ne {c : Char} (h : stopChar c = true) :
    c ≠ '.' ∧ c ≠ 'e' ∧ c ≠ 'E' ∧ c ≠ '-' := by
  rcases stopChar_cases h with rfl | rfl | rfl | rfl | rfl | rfl | rfl <;> exact by decide

/-! ## String escaping round-trip -/

theorem parseStrBody_escStr :
    ∀ (s rest : List Char), parseStrBody (escStr s ++ '"' :: rest) = .ok (s, rest) := by
  intro s
  induction s with
  | nil =>
    intro rest
    show parseStrBody ('"' :: rest) = _
    simp [parseStrBody]
  | cons c t ih =>
    intro rest
    rw [show escStr (c :: t) = escChar c ++ escStr t from rfl, List.append_assoc]
    by_cases h1 : c = '"'
    · subst h1
      simp [escChar, parseStrBody, parseEsc, escDecode, ih rest]
    · by_cases h2 : c = '\\'
      · subst h2
        simp [escChar, parseStrBody, parseEsc, escDecode, ih rest]
      · by_cases h3 : c = Char.ofNat 8
        · subst h3
          simp [escChar, parseStrBody, parseEsc, escDecode, ih rest]
        · by_cases h4 : c = Char.ofNat 12
          · subst h4
            simp [escChar, parseStrBody, parseEsc, escDecode, ih rest]
          · by_cases h5 : c = '\n'
            · subst h5
              simp [escChar, parseStrBody, parseEsc, escDecode, ih rest]
            · by_cases h6 : c = '\r'
              · subst h6
                simp [escChar, parseStrBody, parseEsc, escDecode, ih rest]
              · by_cases h7 : c = '\t'
                · subst h7
                  simp [escChar, parseStrBody, parseEsc, escDecode, ih rest]
                · by_cases h8 : c.toNat < 32
                  · have hhi : c.toNat / 16 < 16 := by omega
                    have hlo : c.toNat % 16 < 16 := by omega
                    rw [escChar, if_neg h1, if_neg h2, if_neg h3, if_neg h4, if_neg h5,
                      if_neg h6, if_neg h7, if_pos h8]
                    show parseStrBody ('\\' :: 'u' :: '0' :: '0' ::
                      Nat.digitChar (c.toNat / 16) :: Nat.digitChar (c.toNat % 16) ::
                        (escStr t ++ '"' :: rest)) = _
                    rw [parseStrBody]
                    simp only [reduceIte]
                    rw [parseEsc]
                    rw [isHex_digitChar _ hhi, isHex_digitChar _ hlo]
                    simp only [Bool.and_true, Bool.and_self, reduceIte, ih rest]
                    rw [hexVal_digitChar _ hhi, hexVal_digitChar _ hlo]
                    have hv : ((hexVal '0' * 16 + hexVal '0') * 16 + c.toNat / 16) * 16 +
                        c.toNat % 16 = c.toNat := by
                      have : hexVal '0' = 0 := by decide
                      omega
                    rw [hv, Char.ofNat_toNat]
                    simp [show isHex '0' = true from by decide]
                  · rw [escChar, if_neg h1, if_neg h2, if_neg h3, if_neg h4, if_neg h5,
                      if_neg h6, if_neg h7, if_neg h8]
                    show parseStrBody (c :: (escStr t ++ '"' :: rest)) = _
                    rw [parseStrBody]
                    simp [h1, h2, h8, ih rest]

/-! ## Number printing round-trip -/

theorem isEmpty_false_of_ne_nil {α : Type} {l : List α} (h : l ≠ []) : l.isEmpty = false := by
  cases l with
  | nil => exact absurd rfl h
  | cons a t => rfl

theorem digit_ne_minus {c : Char} (h : isDigitC c = true) : c ≠ '-' := by
  intro he
  subst he
  exact absurd h (by decide)

theorem goodRest_head {rest : List Char} (hr : goodRestB rest = true) :
    ∀ c, rest.head? = some c → isDigitC c = false := by
  intro c hc
  cases rest with
  | nil => simp at hc
  | cons c0 t0 =>
    rw [List.head?_cons, Option.some_inj] at hc
    subst hc
    exact stopChar_not_digit hr

theorem natDigits_cons (m : Nat) :
    ∃ d ds, natDigits m = d :: ds ∧ isDigitC d = true := by
  cases h : natDigits m with
  | nil => exact absurd h (natDigits_ne_nil m)
  | cons d ds =>
    refine ⟨d, ds, rfl, ?_⟩
    have hall := natDigits_all m
    rw [h, List.all_cons, Bool.and_eq_true] at hall
    exact hall.1

theorem minExp_dvd {den : Nat} (h : den ∣ 10 ^ den) : den ∣ 10 ^ minExp den := by
  rw [minExp]
  cases hf : (List.range (den + 1)).find? (fun k => decide (den ∣ 10 ^ k)) with
  | some k =>
    have hk := List.find?_some hf
    rw [decide_eq_true_eq] at hk
    simpa using hk
  | none =>
    exfalso
    have := List.find?_eq_none.mp hf den (List.mem_range.mpr (by omega))
    rw [decide_eq_true_eq] at this
    exact this h

theorem mkFloat_roundtrip (q : Rat) (K : Nat) (h : q.den ∣ 10 ^ K) :
    mkFloat (decide (q.num < 0)) (q.num.natAbs * 10 ^ K / q.den) K 0 = q := by
  have hdenQ : ((q.den : ℚ)) ≠ 0 := by
    exact_mod_cast q.den_nz
  have hm : q.den ∣ q.num.natAbs * 10 ^ K := Dvd.dvd.mul_left h q.num.natAbs
  have hn : q.num.natAbs * 10 ^ K / q.den * q.den = q.num.natAbs * 10 ^ K :=
    Nat.div_mul_cancel hm
  set n := q.num.natAbs * 10 ^ K / q.den with hndef
  have hcast : (n : ℚ) * (q.den : ℚ) = (q.num.natAbs : ℚ) * 10 ^ K := by
    exact_mod_cast hn
  have hq := Rat.num_div_den q
  have hqden : q * (q.den : ℚ) = (q.num : ℚ) := by
    have h2 := congrArg (fun x : ℚ => x * (q.den : ℚ)) hq
    simp only at h2
    rw [div_mul_cancel₀ _ hdenQ] at h2
    exact h2.symm
  rw [mkFloat, Rat.divInt_eq_div]
  have hsimp0 : ((0 : Int)).toNat = 0 := rfl
  have hsimp1 : (-(0 : Int)).toNat = 0 := rfl
  rw [hsimp0, hsimp1, pow_zero, mul_one, Nat.add_zero]
  have hpowcast : (((10 : ℤ) ^ K : ℤ) : ℚ) = (10 : ℚ) ^ K := by push_cast; ring
  rw [hpowcast, div_eq_iff (pow_ne_zero K (by norm_num : (10 : ℚ) ≠ 0))]
  by_cases hneg : q.num < 0
  · rw [if_pos (by simpa using hneg)]
    have habsZ : (q.num.natAbs : ℤ) = -q.num := by omega
    have habsQ : ((q.num.natAbs : ℚ)) = -(q.num : ℚ) := by
      have h1 : ((q.num.natAbs : ℤ) : ℚ) = ((-q.num : ℤ) : ℚ) := by rw [habsZ]
      rw [Int.cast_neg, Int.cast_natCast] at h1
      exact h1
    have hcastneg : ((-(n : ℤ) : ℤ) : ℚ) = -(n : ℚ) := by push_cast; ring
    rw [hcastneg]
    apply mul_right_cancel₀ hdenQ
    calc -(n : ℚ) * (q.den : ℚ)
        = -((n : ℚ) * (q.den : ℚ)) := by ring
      _ = -((q.num.natAbs : ℚ) * 10 ^ K) := by rw [hcast]
      _ = (q.num : ℚ) * 10 ^ K := by rw [habsQ]; ring
      _ = (q * (q.den : ℚ)) * 10 ^ K := by rw [hqden]
      _ = q * 10 ^ K * (q.den : ℚ) := by ring
  · rw [if_neg (by simpa using hneg)]
    have habsZ : (q.num.natAbs : ℤ) = q.num := by omega
    have habsQ : ((q.num.natAbs : ℚ)) = (q.num : ℚ) := by
      have h1 : ((q.num.natAbs : ℤ) : ℚ) = ((q.num : ℤ) : ℚ) := by rw [habsZ]
      rw [Int.cast_natCast] at h1
      exact h1
    have hcastn : (((n : ℤ) : ℤ) : ℚ) = (n : ℚ) := by push_cast; ring
    rw [hcastn]
    apply mul_right_cancel₀ hdenQ
    calc (n : ℚ) * (q.den : ℚ)
        = (q.num.natAbs : ℚ) * 10 ^ K := hcast
      _ = (q.num : ℚ) * 10 ^ K := by rw [habsQ]
      _ = (q * (q.den : ℚ)) * 10 ^ K := by rw [hqden]
      _ = q * 10 ^ K * (q.den : ℚ) := by ring

theorem parseNum_after {s : List Char} (neg : Bool) (m : Nat) (rest : List Char)
    (hr : goodRestB rest = true)
    (hss : splitSign s = (neg, natDigits m ++ rest)) :
    parseNum s = .ok (.numInt (intOfParts neg m), rest) := by
  have htd := takeWhile_exact (natDigits m) rest (natDigits_all m) (goodRest_head hr)
  rw [parseNum]
  rw [hss]
  simp only
  rw [htd.1, htd.2, isEmpty_false_of_ne_nil (natDigits_ne_nil m)]
  simp only [Bool.false_eq_true, reduceIte]
  cases rest with
  | nil => simp [finishNum, digitsToNat_natDigits]
  | cons c0 t0 =>
    have hstop0 : stopChar c0 = true := hr
    have hne := stopChar_ne hstop0
    simp [hne.1, hne.2.1, hne.2.2.1, finishNum, digitsToNat_natDigits]

theorem parseNum_printInt (n : Int) (rest : List Char) (hr : goodRestB rest = true) :
    parseNum (printInt n ++ rest) = .ok (.numInt n, rest) := by
  by_cases hneg : n < 0
  · have hpr : printInt n ++ rest = '-' :: (natDigits n.natAbs ++ rest) := by
      rw [printInt, if_pos hneg]
      rfl
    rw [hpr]
    have hss : splitSign ('-' :: (natDigits n.natAbs ++ rest)) =
        (true, natDigits n.natAbs ++ rest) := by
      simp [splitSign]
    rw [parseNum_after true n.natAbs rest hr hss]
    have : intOfParts true n.natAbs = n := by
      rw [intOfParts]
      simp only [reduceIte]
      omega
    rw [this]
  · have hpr : printInt n ++ rest = natDigits n.natAbs ++ rest := by
      rw [printInt, if_neg hneg, List.nil_append]
    rw [hpr]
    obtain ⟨d, ds, hds, hdig⟩ := natDigits_cons n.natAbs
    have hss : splitSign (natDigits n.natAbs ++ rest) =
        (false, natDigits n.natAbs ++ rest) := by
      rw [hds, List.cons_append, splitSign, if_neg (digit_ne_minus hdig)]
    rw [parseNum_after false n.natAbs rest hr hss]
    have : intOfParts false n.natAbs = n := by
      rw [intOfParts]
      simp only [Bool.false_eq_true, reduceIte]
      omega
    rw [this]

theorem parseNumF_after {s : List Char} (neg : Bool) (q : Rat) (K : Nat) (ip fp rest : List Char)
    (hr : goodRestB rest = true)
    (hip_all : ip.all isDigitC = true) (hip_ne : ip ≠ [])
    (hfp_all : fp.all isDigitC = true) (hfp_ne : fp ≠ [])
    (hfplen : fp.length = K)
    (hval : mkFloat neg (digitsToNat 0 (ip ++ fp)) K 0 = q)
    (hss : splitSign s = (neg, ip ++ '.' :: (fp ++ rest))) :
    parseNum s = .ok (.numFloat q, rest) := by
  have hsplit1 := takeWhile_exact ip ('.' :: (fp ++ rest)) hip_all
    (fun c hc => by rw [List.head?_cons, Option.some_inj] at hc; subst hc; decide)
  have hsplit2 := takeWhile_exact fp rest hfp_all (goodRest_head hr)
  rw [parseNum, hss]
  simp only
  rw [hsplit1.1, hsplit1.2, isEmpty_false_of_ne_nil hip_ne]
  simp only [Bool.false_eq_true, reduceIte]
  cases rest with
  | nil =>
    rw [List.append_nil] at hsplit2
    simp [hsplit2.1, hsplit2.2, isEmpty_false_of_ne_nil hfp_ne, finishNum, hfplen, hval]
  | cons c0 t0 =>
    have hstop : stopChar c0 = true := hr
    have hne := stopChar_ne hstop
    simp [hsplit2.1, hsplit2.2, isEmpty_false_of_ne_nil hfp_ne, finishNum, hfplen, hval,
      hne.2.1, hne.2.2.1]

theorem parseNum_printFloat (q : Rat) (hq : q.den ∣ 10 ^ q.den) (rest : List Char)
    (hr : goodRestB rest = true) :
    parseNum (printFloat q ++ rest) = .ok (.numFloat q, rest) := by
  have hKdvd : q.den ∣ 10 ^ max (minExp q.den) 1 :=
    dvd_trans (minExp_dvd hq) (pow_dvd_pow 10 (Nat.le_max_left _ _))
  simp only [printFloat]
  set K := max (minExp q.den) 1 with hK
  have hK1 : 1 ≤ K := Nat.le_max_right _ _
  set n := q.num.natAbs * 10 ^ K / q.den with hn
  set ds := List.leftpad (K + 1) '0' (natDigits n) with hds
  have hds_eq : ds = List.replicate (K + 1 - (natDigits n).length) '0' ++ natDigits n := rfl
  have hlen : K + 1 ≤ ds.length := by
    rw [hds, List.leftpad_length]
    exact Nat.le_max_left _ _
  have hall : ds.all isDigitC = true := by
    rw [List.all_eq_true]
    intro c hc
    rw [hds_eq] at hc
    rcases List.mem_append.mp hc with h | h
    · rw [List.eq_of_mem_replicate h]; decide
    · exact List.all_eq_true.mp (natDigits_all n) c h
  set ip := ds.take (ds.length - K) with hip
  set fp := ds.drop (ds.length - K) with hfp
  have hipfp : ip ++ fp = ds := List.take_append_drop _ _
  have hfplen : fp.length = K := by rw [hfp, List.length_drop]; omega
  have hiplen : ip.length = ds.length - K := by
    rw [hip, List.length_take, Nat.min_eq_left (by omega)]
  have hip_ne : ip ≠ [] := by
    intro h0
    rw [h0] at hiplen
    simp at hiplen
    omega
  have hfp_ne : fp ≠ [] := by
    intro h0
    rw [h0] at hfplen
    simp at hfplen
    omega
  have hip_all : ip.all isDigitC = true := by
    rw [List.all_eq_true]
    intro c hc
    exact List.all_eq_true.mp hall c (List.take_subset _ _ hc)
  have hfp_all : fp.all isDigitC = true := by
    rw [List.all_eq_true]
    intro c hc
    exact List.all_eq_true.mp hall c (List.drop_subset _ _ hc)
  have hvalN : digitsToNat 0 (ip ++ fp) = n := by
    rw [hipfp, hds_eq, digitsToNat_zeros, digitsToNat_natDigits]
  have hmk := mkFloat_roundtrip q K hKdvd
  by_cases hneg : q.num < 0
  · have hdec : decide (q.num < 0) = true := by simpa using hneg
    rw [hdec] at hmk
    rw [if_pos hneg]
    have harr : ((['-'] ++ ip ++ '.' :: fp) ++ rest : List Char) =
        '-' :: (ip ++ '.' :: (fp ++ rest)) := by
      simp [List.append_assoc]
    rw [harr]
    exact parseNumF_after true q K ip fp rest hr hip_all hip_ne hfp_all hfp_ne hfplen
      (by rw [hvalN]; exact hmk) (by simp [splitSign])
  · have hdec : decide (q.num < 0) = false := by simpa using hneg
    rw [hdec] at hmk
    rw [if_neg hneg]
    obtain ⟨d, ip', hipc, hdig⟩ : ∃ d t, ip = d :: t ∧ isDigitC d = true := by
      cases hc : ip with
      | nil => exact absurd hc hip_ne
      | cons a b =>
        refine ⟨a, b, rfl, ?_⟩
        have := hip_all
        rw [hc, List.all_cons, Bool.and_eq_true] at this
        exact this.1
    have harr : (([] ++ ip ++ '.' :: fp) ++ rest : List Char) =
        ip ++ '.' :: (fp ++ rest) := by
      simp [List.append_assoc]
    rw [harr]
    refine parseNumF_after false q K ip fp rest hr hip_all hip_ne hfp_all hfp_ne hfplen
      (by rw [hvalN]; exact hmk) ?_
    rw [hipc, List.cons_append, splitSign, if_neg (digit_ne_minus hdig), ← List.cons_append,
      ← hipc]

/-! ## Heads of printed values, well-formedness and size lemmas -/

theorem exists_digit_head {l : List Char} (hne : l ≠ []) (hall : l.all isDigitC = true) :
    ∃ c t, l = c :: t ∧ isDigitC c = true := by
  cases hc : l with
  | nil => exact absurd hc hne
  | cons a b =>
    refine ⟨a, b, rfl, ?_⟩
    rw [hc, List.all_cons, Bool.and_eq_true] at hall
    exact hall.1

theorem leftpad_digits (m n : Nat) : (List.leftpad m '0' (natDigits n)).all isDigitC = true := by
  have hrep : List.leftpad m '0' (natDigits n) =
      List.replicate (m - (natDigits n).length) '0' ++ natDigits n := rfl
  rw [List.all_eq_true]
  intro c hc
  rw [hrep] at hc
  rcases List.mem_append.mp hc with h | h
  · rw [List.eq_of_mem_replicate h]; decide
  · exact List.all_eq_true.mp (natDigits_all n) c h

theorem printInt_head (n : Int) :
    ∃ c t, printInt n = c :: t ∧ (c = '-' || isDigitC c) = true := by
  by_cases hneg : n < 0
  · refine ⟨'-', natDigits n.natAbs, ?_, by decide⟩
    rw [printInt, if_pos hneg, List.singleton_append]
  · obtain ⟨c, t, hct, hdig⟩ := exists_digit_head (natDigits_ne_nil n.natAbs) (natDigits_all _)
    refine ⟨c, t, ?_, by rw [hdig, Bool.or_true]⟩
    rw [printInt, if_neg hneg, List.nil_append, hct]

theorem printFloat_head (q : Rat) :
    ∃ c t, printFloat q = c :: t ∧ (c = '-' || isDigitC c) = true := by
  simp only [printFloat]
  set K := max (minExp q.den) 1 with hK
  have hK1 : 1 ≤ K := Nat.le_max_right _ _
  set n := q.num.natAbs * 10 ^ K / q.den with hn
  set ds := List.leftpad (K + 1) '0' (natDigits n) with hds
  have hlen : K + 1 ≤ ds.length := by
    rw [hds, List.leftpad_length]
    exact Nat.le_max_left _ _
  have hip_len : (ds.take (ds.length - K)).length = ds.length - K := by
    rw [List.length_take, Nat.min_eq_left (by omega)]
  have hip_ne : ds.take (ds.length - K) ≠ [] := by
    intro h0
    rw [h0] at hip_len
    simp at hip_len
    omega
  have hip_all : (ds.take (ds.length - K)).all isDigitC = true := by
    rw [List.all_eq_true]
    intro c hc
    exact List.all_eq_true.mp (leftpad_digits (K + 1) n) c (List.take_subset _ _ hc)
  by_cases hneg : q.num < 0
  · refine ⟨'-', ds.take (ds.length - K) ++ '.' :: ds.drop (ds.length - K), ?_, by decide⟩
    rw [if_pos hneg, List.singleton_append, List.cons_append]
  · obtain ⟨c, t, hct, hdig⟩ := exists_digit_head hip_ne hip_all
    refine ⟨c, t ++ '.' :: ds.drop (ds.length - K), ?_, by rw [hdig, Bool.or_true]⟩
    rw [if_neg hneg, List.nil_append, hct]
    rfl

theorem isWS_cases {c : Char} (h : isWS c = true) :
    c = ' ' ∨ c = '\t' ∨ c = '\n' ∨ c = '\r' := by
  simp only [isWS, Bool.or_eq_true, decide_eq_true_eq] at h
  tauto

theorem digit_head_props {c : Char} (h : isDigitC c = true) :
    isWS c = false ∧ c ≠ ']' ∧ c ≠ rbrace := by
  refine ⟨?_, ?_, ?_⟩
  · by_contra hws
    rw [Bool.not_eq_false] at hws
    rcases isWS_cases hws with rfl | rfl | rfl | rfl <;> exact absurd h (by decide)
  · intro he; subst he; exact absurd h (by decide)
  · intro he; subst he; exact absurd h (by decide)

theorem numhead_props {c : Char} (h : (c = '-' || isDigitC c) = true) :
    isWS c = false ∧ c ≠ ']' ∧ c ≠ rbrace := by
  rw [Bool.or_eq_true, decide_eq_true_eq] at h
  rcases h with rfl | h
  · decide
  · exact digit_head_props h

theorem printG_head (g : Gaps) (d : Nat) (v : Json) :
    ∃ c t, printG g d v = c :: t ∧ isWS c = false ∧ c ≠ ']' ∧ c ≠ rbrace := by
  cases v with
  | null => exact ⟨'n', _, rfl, by decide⟩
  | bool b =>
    cases b with
    | true => exact ⟨'t', _, rfl, by decide⟩
    | false => exact ⟨'f', _, rfl, by decide⟩
  | numInt n =>
    obtain ⟨c, t, hct, hc⟩ := printInt_head n
    obtain ⟨h1, h2, h3⟩ := numhead_props hc
    exact ⟨c, t, by rw [printG, hct], h1, h2, h3⟩
  | numFloat q =>
    obtain ⟨c, t, hct, hc⟩ := printFloat_head q
    obtain ⟨h1, h2, h3⟩ := numhead_props hc
    exact ⟨c, t, by rw [printG, hct], h1, h2, h3⟩
  | str s => exact ⟨'"', _, rfl, by decide⟩
  | arr es =>
    cases es with
    | nil => exact ⟨'[', _, rfl, by decide⟩
    | cons e t => exact ⟨'[', _, rfl, by decide⟩
  | obj es =>
    cases es with
    | nil => exact ⟨lbrace, _, rfl, by decide⟩
    | cons kv t => exact ⟨lbrace, _, rfl, by decide⟩

theorem printItems_decomp (g : Gaps) (d : Nat) (e : Json) (es : List Json) :
    ∃ X, printItemsG g d (e :: es) = printG g d e ++ X := by
  cases es with
  | nil => exact ⟨[], (List.append_nil _).symm⟩
  | cons e2 t => exact ⟨_, rfl⟩

theorem printEntries_head (g : Gaps) (d : Nat) (kv : String × Json)
    (es : List (String × Json)) :
    ∃ X, printEntriesG g d (kv :: es) = '"' :: X := by
  obtain ⟨k, v⟩ := kv
  cases es with
  | nil => exact ⟨_, rfl⟩
  | cons kv2 t => exact ⟨_, rfl⟩

theorem wfList_mem {es : List Json} (h : wfListB es = true) : ∀ e ∈ es, wfB e = true := by
  induction es with
  | nil => intro e he; cases he
  | cons a t ih =>
    rw [wfListB, Bool.and_eq_true] at h
    intro e he
    rcases List.mem_cons.mp he with rfl | he2
    · exact h.1
    · exact ih h.2 e he2

theorem wfObj_head {k : String} {v : Json} {t : List (String × Json)}
    (h : wfObjB ((k, v) :: t) = true) :
    hasKeyB t k = false ∧ wfB v = true ∧ wfObjB t = true := by
  rw [wfObjB, Bool.and_eq_true, Bool.and_eq_true] at h
  refine ⟨?_, h.1.2, h.2⟩
  have := h.1.1
  rwa [Bool.not_eq_eq_eq_not, Bool.not_true] at this

theorem wfObj_mem {es : List (String × Json)} (h : wfObjB es = true) :
    ∀ p ∈ es, wfB p.2 = true := by
  induction es with
  | nil => intro p hp; cases hp
  | cons a t ih =>
    obtain ⟨k, v⟩ := a
    obtain ⟨_, hv, ht⟩ := wfObj_head h
    intro p hp
    rcases List.mem_cons.mp hp with rfl | hp2
    · exact hv
    · exact ih ht p hp2

theorem fsize_pos (v : Json) : 1 ≤ fsize v := by
  cases v <;> simp [fsize]

theorem fsizeList_mem {es : List Json} : ∀ e ∈ es, fsize e ≤ fsizeList es := by
  induction es with
  | nil => intro e he; cases he
  | cons a t ih =>
    intro e he
    rcases List.mem_cons.mp he with rfl | he2
    · rw [fsizeList]; omega
    · have := ih e he2
      rw [fsizeList]; omega

theorem fsizeList_len (es : List Json) : es.length ≤ fsizeList es := by
  induction es with
  | nil => simp [fsizeList]
  | cons a t ih =>
    rw [fsizeList, List.length_cons]
    omega

theorem fsizeObj_mem {es : List (String × Json)} : ∀ p ∈ es, fsize p.2 ≤ fsizeObj es := by
  induction es with
  | nil => intro p hp; cases hp
  | cons a t ih =>
    intro p hp
    obtain ⟨k, v⟩ := a
    rcases List.mem_cons.mp hp with rfl | hp2
    · have h2 : fsize (k, v).2 = fsize v := rfl
      rw [h2, fsizeObj]
      omega
    · have := ih p hp2
      rw [fsizeObj]
      omega

theorem fsizeObj_len (es : List (String × Json)) : es.length ≤ fsizeObj es := by
  induction es with
  | nil => simp [fsizeObj]
  | cons a t ih =>
    obtain ⟨k, v⟩ := a
    rw [fsizeObj, List.length_cons]
    omega

theorem hasKeyB_false_mem {es : List (String × Json)} {k : String}
    (h : hasKeyB es k = false) : ∀ p ∈ es, p.1 ≠ k := by
  intro p hp he
  rw [hasKeyB] at h
  have : es.any (fun p => decide (p.1 = k)) = true :=
    List.any_eq_true.mpr ⟨p, hp, by rw [he]; simp⟩
  rw [h] at this
  cases this

theorem hasKeyB_append {a b : List (String × Json)} {k : String} :
    hasKeyB (a ++ b) k = (hasKeyB a k || hasKeyB b k) := by
  simp [hasKeyB, List.any_append]

theorem objSet_append {es : List (String × Json)} {k : String} {v : Json}
    (h : hasKeyB es k = false) : objSet es k v = es ++ [(k, v)] := by
  induction es with
  | nil => rfl
  | cons a t ih =>
    obtain ⟨k0, v0⟩ := a
    rw [hasKeyB, List.any_cons, Bool.or_eq_false_iff] at h
    rw [objSet]
    have hne : ¬ (k0 = k) := by
      have := h.1
      simpa using this
    rw [if_neg hne, ih h.2, List.cons_append]

theorem objSetAll_eq {es : List (String × Json)} (hwf : wfObjB es = true) :
    ∀ acc, (∀ p ∈ es, hasKeyB acc p.1 = false) → objSetAll acc es = acc ++ es := by
  induction es with
  | nil => intro acc _; simp [objSetAll]
  | cons a t ih =>
    obtain ⟨k, v⟩ := a
    obtain ⟨hkey, hv, ht⟩ := wfObj_head hwf
    intro acc hdisj
    show objSetAll (objSet acc k v) t = acc ++ (k, v) :: t
    rw [objSet_append (hdisj (k, v) (List.mem_cons_self _ _))]
    rw [ih ht (acc ++ [(k, v)]) ?_]
    · rw [List.append_assoc]; rfl
    · intro p hp
      rw [hasKeyB_append, Bool.or_eq_false_iff]
      refine ⟨hdisj p (List.mem_cons_of_mem _ hp), ?_⟩
      have hne := hasKeyB_false_mem hkey p hp
      have hne2 : ¬ k = p.1 := fun h => hne h.symm
      simp [hasKeyB, hne2]

theorem stopChar_of_ws {c : Char} (h : isWS c = true) : stopChar c = true := by
  rw [stopChar, h]
  simp

theorem goodRest_ws_cons {g : List Char} (hg : g.all isWS = true) {c : Char}
    (hc : stopChar c = true) (X : List Char) : goodRestB (g ++ c :: X) = true := by
  cases g with
  | nil => exact hc
  | cons w t =>
    rw [List.all_cons, Bool.and_eq_true] at hg
    rw [List.cons_append]
    show stopChar w = true
    exact stopChar_of_ws hg.1

theorem gapsWS_compact : gapsWS compactGaps := by
  refine ⟨fun d => rfl, fun d => rfl, fun d => rfl, rfl⟩

theorem gapsWS_pretty (w : Nat) : gapsWS (prettyGaps w) := by
  have hsp : ∀ n, (spaces n).all isWS = true := by
    intro n
    rw [List.all_eq_true]
    intro c hc
    rw [spaces] at hc
    rw [List.eq_of_mem_replicate hc]
    decide
  refine ⟨fun d => ?_, fun d => ?_, fun d => ?_, ?_⟩ <;>
    simp [prettyGaps, List.all_cons, hsp, show isWS '\n' = true from by decide,
      show isWS ' ' = true from by decide]

/-! ## Round trip of printed arrays and objects through the parser loops -/

theorem goodRest_cons {c : Char} (h : stopChar c = true) (X : List Char) :
    goodRestB (c :: X) = true := h

theorem string_mk_data (s : String) : String.mk s.data = s := rfl

theorem parseArr_print (g : Gaps) (hg : gapsWS g)
    (pv : List Char → Except Err (Json × List Char)) (d : Nat) :
    ∀ (es : List Json), es ≠ [] →
      (∀ e ∈ es, ∀ rest', goodRestB rest' = true → pv (printG g d e ++ rest') = .ok (e, rest')) →
      ∀ fuel, es.length ≤ fuel →
      ∀ close, close.all isWS = true →
      ∀ rest, goodRestB rest = true →
      parseArr pv fuel (printItemsG g d es ++ (close ++ (']' :: rest))) = .ok (es, rest) := by
  intro es
  induction es with
  | nil => intro h; exact absurd rfl h
  | cons e t ih =>
    intro _ hpv fuel hfuel close hclose rest hrest
    have hf1 : 1 ≤ fuel := le_trans (by simp) hfuel
    obtain ⟨f, rfl⟩ : ∃ f, fuel = f + 1 := ⟨fuel - 1, by omega⟩
    cases t with
    | nil =>
      rw [show printItemsG g d [e] = printG g d e from rfl, parseArr]
      have hgr : goodRestB (close ++ (']' :: rest)) = true :=
        goodRest_ws_cons hclose (by decide) rest
      rw [hpv e (List.mem_cons_self e []) _ hgr]
      have hsk : skipWS (close ++ (']' :: rest)) = ']' :: rest := by
        rw [skipWS_ws_append close _ hclose, skipWS_cons_nonws (by decide) rest]
      simp [hsk]
    | cons e2 t2 =>
      rw [show printItemsG g d (e :: e2 :: t2) =
        printG g d e ++ ',' :: (g.sepG d ++ printItemsG g d (e2 :: t2)) from rfl]
      rw [List.append_assoc, List.cons_append, List.append_assoc, parseArr]
      have hgr1 : goodRestB (',' :: (g.sepG d ++ (printItemsG g d (e2 :: t2) ++
          (close ++ (']' :: rest))))) = true := goodRest_cons (by decide) _
      rw [hpv e (List.mem_cons_self e _) _ hgr1]
      obtain ⟨X, hd1⟩ := printItems_decomp g d e2 t2
      obtain ⟨c0, t0, hd2, hws0, _, _⟩ := printG_head g d e2
      have hsk1 := skipWS_cons_nonws (show isWS ',' = false from by decide)
        (g.sepG d ++ (printItemsG g d (e2 :: t2) ++ (close ++ (']' :: rest))))
      have hsk2 : skipWS (g.sepG d ++ (printItemsG g d (e2 :: t2) ++
          (close ++ (']' :: rest)))) =
          printItemsG g d (e2 :: t2) ++ (close ++ (']' :: rest)) := by
        simp only [skipWS_ws_append _ _ (hg.2.1 d), hd1, hd2, List.cons_append,
          List.append_assoc]
        rw [skipWS_cons_nonws hws0]
      have hih := ih (by simp) (fun e' he' => hpv e' (List.mem_cons_of_mem e he'))
        f (by simp only [List.length_cons] at hfuel ⊢; omega) close hclose rest hrest
      simp [hsk1, hsk2, hih]

theorem parseObjRest_print (g : Gaps) (hg : gapsWS g)
    (pv : List Char → Except Err (Json × List Char)) (d : Nat) :
    ∀ (es : List (String × Json)), es ≠ [] →
      (∀ p ∈ es, ∀ rest', goodRestB rest' = true →
        pv (printG g d p.2 ++ rest') = .ok (p.2, rest')) →
      ∀ fuel, es.length ≤ fuel →
      ∀ close, close.all isWS = true →
      ∀ rest, goodRestB rest = true →
      ∀ acc, parseObjRest pv fuel (printEntriesG g d es ++ (close ++ (rbrace :: rest))) acc =
        .ok (objSetAll acc es, rest) := by
  intro es
  induction es with
  | nil => intro h; exact absurd rfl h
  | cons kv t ih =>
    obtain ⟨k, v⟩ := kv
    intro _ hpv fuel hfuel close hclose rest hrest acc
    have hf1 : 1 ≤ fuel := le_trans (by simp) hfuel
    obtain ⟨f, rfl⟩ : ∃ f, fuel = f + 1 := ⟨fuel - 1, by omega⟩
    cases t with
    | nil =>
      rw [show printEntriesG g d [(k, v)] =
        '"' :: (escStr k.data ++ '"' :: ':' :: (g.colonG ++ printG g d v)) from rfl]
      simp only [List.cons_append, List.append_assoc]
      rw [parseObjRest]
      have hstr := parseStrBody_escStr k.data
        (':' :: (g.colonG ++ (printG g d v ++ (close ++ rbrace :: rest))))
      have hsk1 := skipWS_cons_nonws (show isWS ':' = false from by decide)
        (g.colonG ++ (printG g d v ++ (close ++ rbrace :: rest)))
      have hsk2 : skipWS (g.colonG ++ (printG g d v ++ (close ++ rbrace :: rest))) =
          printG g d v ++ (close ++ rbrace :: rest) := by
        obtain ⟨c0, t0, hd2, hws0, _, _⟩ := printG_head g d v
        simp only [skipWS_ws_append _ _ hg.2.2.2, hd2, List.cons_append]
        rw [skipWS_cons_nonws hws0]
      have hgr : goodRestB (close ++ rbrace :: rest) = true :=
        goodRest_ws_cons hclose (by decide) rest
      have hv := hpv (k, v) (List.mem_cons_self _ _) _ hgr
      have hsk3 : skipWS (close ++ rbrace :: rest) = rbrace :: rest := by
        rw [skipWS_ws_append _ _ hclose, skipWS_cons_nonws (by decide) rest]
      simp only [hstr, hsk1, hsk2, hv, hsk3]
      simp [string_mk_data, objSetAll]
    | cons kv2 t2 =>
      rw [show printEntriesG g d ((k, v) :: kv2 :: t2) =
        ('"' :: (escStr k.data ++ '"' :: ':' :: (g.colonG ++ printG g d v))) ++
          ',' :: (g.sepG d ++ printEntriesG g d (kv2 :: t2)) from rfl]
      simp only [List.cons_append, List.append_assoc]
      rw [parseObjRest]
      have hstr := parseStrBody_escStr k.data
        (':' :: (g.colonG ++ (printG g d v ++ (',' :: (g.sepG d ++
          (printEntriesG g d (kv2 :: t2) ++ (close ++ rbrace :: rest)))))))
      have hsk1 := skipWS_cons_nonws (show isWS ':' = false from by decide)
        (g.colonG ++ (printG g d v ++ (',' :: (g.sepG d ++
          (printEntriesG g d (kv2 :: t2) ++ (close ++ rbrace :: rest))))))
      have hsk2 : skipWS (g.colonG ++ (printG g d v ++ (',' :: (g.sepG d ++
          (printEntriesG g d (kv2 :: t2) ++ (close ++ rbrace :: rest)))))) =
          printG g d v ++ (',' :: (g.sepG d ++
            (printEntriesG g d (kv2 :: t2) ++ (close ++ rbrace :: rest)))) := by
        obtain ⟨c0, t0, hd2, hws0, _, _⟩ := printG_head g d v
        simp only [skipWS_ws_append _ _ hg.2.2.2, hd2, List.cons_append]
        rw [skipWS_cons_nonws hws0]
      have hgr : goodRestB (',' :: (g.sepG d ++
          (printEntriesG g d (kv2 :: t2) ++ (close ++ rbrace :: rest)))) = true :=
        goodRest_cons (by decide) _
      have hv := hpv (k, v) (List.mem_cons_self _ _) _ hgr
      have hsk3 := skipWS_cons_nonws (show isWS ',' = false from by decide)
        (g.sepG d ++ (printEntriesG g d (kv2 :: t2) ++ (close ++ rbrace :: rest)))
      have hsk4 : skipWS (g.sepG d ++ (printEntriesG g d (kv2 :: t2) ++
          (close ++ rbrace :: rest))) =
          printEntriesG g d (kv2 :: t2) ++ (close ++ rbrace :: rest) := by
        obtain ⟨X, hdx⟩ := printEntries_head g d kv2 t2
        simp only [skipWS_ws_append _ _ (hg.2.1 d), hdx, List.cons_append]
        rw [skipWS_cons_nonws (by decide)]
      have hih := ih (by simp) (fun p hp => hpv p (List.mem_cons_of_mem _ hp))
        f (by simp only [List.length_cons] at hfuel ⊢; omega) close hclose rest hrest
        (objSet acc (String.mk k.data) v)
      simp only [hstr, hsk1, hsk2, hv, hsk3, hsk4]
      have hcomma : ((',' : Char) = rbrace) = False := by
        simp [rbrace]
      simp [hcomma, hih, string_mk_data, objSetAll]

/-! ## The parser inverts the printer -/

theorem parseVal_printG (g : Gaps) (hg : gapsWS g) :
    ∀ v, wfB v = true → ∀ d rest fuel, goodRestB rest = true → fsize v ≤ fuel →
      parseVal fuel (printG g d v ++ rest) = .ok (v, rest) := by
  intro v
  induction v using Json.strongInd with
  | hnull =>
    intro _ d rest fuel hrest hfuel
    have hf1 : 1 ≤ fuel := le_trans (fsize_pos _) hfuel
    obtain ⟨f, rfl⟩ : ∃ f, fuel = f + 1 := ⟨fuel - 1, by omega⟩
    rw [show printG g d .null ++ rest = 'n' :: 'u' :: 'l' :: 'l' :: rest from rfl, parseVal]
    simp only []
    rw [if_neg (show ¬ ((('n' : Char) = '-' || isDigitC 'n') = true) from by decide),
      if_pos trivial]
    rfl
  | hbool b =>
    intro _ d rest fuel hrest hfuel
    have hf1 : 1 ≤ fuel := le_trans (fsize_pos _) hfuel
    obtain ⟨f, rfl⟩ : ∃ f, fuel = f + 1 := ⟨fuel - 1, by omega⟩
    cases b with
    | true =>
      rw [show printG g d (.bool true) ++ rest = 't' :: 'r' :: 'u' :: 'e' :: rest from rfl,
        parseVal]
      simp only []
      rw [if_neg (show ¬ ((('t' : Char) = '-' || isDigitC 't') = true) from by decide),
        if_neg (show ('t' : Char) ≠ 'n' from by decide),
        if_pos trivial]
      rfl
    | false =>
      rw [show printG g d (.bool false) ++ rest = 'f' :: 'a' :: 'l' :: 's' :: 'e' :: rest
        from rfl, parseVal]
      simp only []
      rw [if_neg (show ¬ ((('f' : Char) = '-' || isDigitC 'f') = true) from by decide),
        if_neg (show ('f' : Char) ≠ 'n' from by decide),
        if_neg (show ('f' : Char) ≠ 't' from by decide),
        if_pos trivial]
      rfl
  | hnum n =>
    intro _ d rest fuel hrest hfuel
    have hf1 : 1 ≤ fuel := le_trans (fsize_pos _) hfuel
    obtain ⟨f, rfl⟩ : ∃ f, fuel = f + 1 := ⟨fuel - 1, by omega⟩
    obtain ⟨c, t0, hct, hc⟩ := printInt_head n
    rw [show printG g d (.numInt n) = printInt n from rfl, hct, List.cons_append, parseVal]
    rw [if_pos hc, ← List.cons_append, ← hct, parseNum_printInt n rest hrest]
  | hflt q =>
    intro hwf d rest fuel hrest hfuel
    have hq : q.den ∣ 10 ^ q.den := by
      have h2 : wfB (.numFloat q) = decide (q.den ∣ 10 ^ q.den) := rfl
      rw [h2, decide_eq_true_eq] at hwf
      exact hwf
    have hf1 : 1 ≤ fuel := le_trans (fsize_pos _) hfuel
    obtain ⟨f, rfl⟩ : ∃ f, fuel = f + 1 := ⟨fuel - 1, by omega⟩
    obtain ⟨c, t0, hct, hc⟩ := printFloat_head q
    rw [show printG g d (.numFloat q) = printFloat q from rfl, hct, List.cons_append, parseVal]
    rw [if_pos hc, ← List.cons_append, ← hct, parseNum_printFloat q hq rest hrest]
  | hstr s =>
    intro _ d rest fuel hrest hfuel
    have hf1 : 1 ≤ fuel := le_trans (fsize_pos _) hfuel
    obtain ⟨f, rfl⟩ : ∃ f, fuel = f + 1 := ⟨fuel - 1, by omega⟩
    have hpg : printG g d (.str s) ++ rest = '"' :: (escStr s.data ++ '"' :: rest) := by
      rw [show printG g d (.str s) = '"' :: (escStr s.data ++ ['"']) from rfl]
      simp [List.cons_append, List.append_assoc]
    rw [hpg, parseVal]
    simp only []
    rw [if_neg (show ¬ ((('"' : Char) = '-' || isDigitC '"') = true) from by decide),
      if_neg (show ('"' : Char) ≠ 'n' from by decide),
      if_neg (show ('"' : Char) ≠ 't' from by decide),
      if_neg (show ('"' : Char) ≠ 'f' from by decide),
      if_pos trivial]
    rw [parseStrBody_escStr s.data rest]
  | harr es ihm =>
    intro hwf d rest fuel hrest hfuel
    have hf1 : 1 ≤ fuel := le_trans (fsize_pos _) hfuel
    obtain ⟨f, rfl⟩ : ∃ f, fuel = f + 1 := ⟨fuel - 1, by omega⟩
    cases es with
    | nil =>
      rw [show printG g d (.arr []) ++ rest = '[' :: ']' :: rest from rfl, parseVal]
      simp only []
      rw [if_neg (show ¬ ((('[' : Char) = '-' || isDigitC '[') = true) from by decide),
        if_neg (show ('[' : Char) ≠ 'n' from by decide),
        if_neg (show ('[' : Char) ≠ 't' from by decide),
        if_neg (show ('[' : Char) ≠ 'f' from by decide),
        if_neg (show ('[' : Char) ≠ '"' from by decide),
        if_pos trivial]
      rw [skipWS_cons_nonws (show isWS ']' = false from by decide) rest]
      rfl
    | cons e est =>
      have hl : wfListB (e :: est) = true := hwf
      have hfs : fsize (.arr (e :: est)) = 1 + fsizeList (e :: est) := rfl
      rw [hfs] at hfuel
      have hpg : printG g d (.arr (e :: est)) ++ rest = '[' :: (g.openG (d + 1) ++
          (printItemsG g (d + 1) (e :: est) ++ (g.closeG d ++ (']' :: rest)))) := by
        rw [show printG g d (.arr (e :: est)) = '[' :: (g.openG (d + 1) ++
          printItemsG g (d + 1) (e :: est) ++ g.closeG d ++ [']']) from rfl]
        simp [List.cons_append, List.append_assoc]
      rw [hpg, parseVal]
      simp only []
      rw [if_neg (show ¬ ((('[' : Char) = '-' || isDigitC '[') = true) from by decide),
        if_neg (show ('[' : Char) ≠ 'n' from by decide),
        if_neg (show ('[' : Char) ≠ 't' from by decide),
        if_neg (show ('[' : Char) ≠ 'f' from by decide),
        if_neg (show ('[' : Char) ≠ '"' from by decide),
        if_pos trivial]
      obtain ⟨X, hdx⟩ := printItems_decomp g (d + 1) e est
      obtain ⟨c0, t0, hd2, hws0, hbr0, _⟩ := printG_head g (d + 1) e
      have hsk : skipWS (g.openG (d + 1) ++
          (printItemsG g (d + 1) (e :: est) ++ (g.closeG d ++ (']' :: rest)))) =
          printItemsG g (d + 1) (e :: est) ++ (g.closeG d ++ (']' :: rest)) := by
        simp only [skipWS_ws_append _ _ (hg.1 (d + 1)), hdx, hd2, List.cons_append,
          List.append_assoc]
        rw [skipWS_cons_nonws hws0]
      rw [hsk]
      have hpv : ∀ e' ∈ e :: est, ∀ rest', goodRestB rest' = true →
          parseVal f (printG g (d + 1) e' ++ rest') = .ok (e', rest') := by
        intro e' he' rest' hr'
        exact ihm e' he' (wfList_mem hl e' he') (d + 1) rest' f hr'
          (le_trans (fsizeList_mem e' he') (by omega))
      have harr2 := parseArr_print g hg (parseVal f) (d + 1) (e :: est) (by simp) hpv f
        (le_trans (fsizeList_len _) (by omega)) (g.closeG d) (hg.2.2.1 d) rest hrest
      split
      · next r2 heq =>
        exfalso
        rw [hdx, hd2, List.cons_append, List.cons_append] at heq
        have := (List.cons.injEq _ _ _ _).mp heq
        exact hbr0 this.1
      · next hne =>
        rw [harr2]
  | hobj es ihm =>
    intro hwf d rest fuel hrest hfuel
    have hf1 : 1 ≤ fuel := le_trans (fsize_pos _) hfuel
    obtain ⟨f, rfl⟩ : ∃ f, fuel = f + 1 := ⟨fuel - 1, by omega⟩
    cases es with
    | nil =>
      rw [show printG g d (.obj []) ++ rest = lbrace :: rbrace :: rest from rfl, parseVal]
      simp only []
      rw [if_neg (show ¬ (((lbrace : Char) = '-' || isDigitC lbrace) = true) from by decide),
        if_neg (show (lbrace : Char) ≠ 'n' from by decide),
        if_neg (show (lbrace : Char) ≠ 't' from by decide),
        if_neg (show (lbrace : Char) ≠ 'f' from by decide),
        if_neg (show (lbrace : Char) ≠ '"' from by decide),
        if_neg (show (lbrace : Char) ≠ '[' from by decide),
        if_pos trivial]
      rw [skipWS_cons_nonws (show isWS rbrace = false from by decide) rest]
      simp only []
      rw [if_pos trivial]
    | cons kv est =>
      obtain ⟨k1, v1⟩ := kv
      have hwo : wfObjB ((k1, v1) :: est) = true := hwf
      have hfs : fsize (.obj ((k1, v1) :: est)) = 1 + fsizeObj ((k1, v1) :: est) := rfl
      rw [hfs] at hfuel
      have hpg : printG g d (.obj ((k1, v1) :: est)) ++ rest = lbrace :: (g.openG (d + 1) ++
          (printEntriesG g (d + 1) ((k1, v1) :: est) ++ (g.closeG d ++ (rbrace :: rest)))) := by
        rw [show printG g d (.obj ((k1, v1) :: est)) = lbrace :: (g.openG (d + 1) ++
          printEntriesG g (d + 1) ((k1, v1) :: est) ++ g.closeG d ++ [rbrace]) from rfl]
        simp [List.cons_append, List.append_assoc]
      rw [hpg, parseVal]
      simp only []
      rw [if_neg (show ¬ (((lbrace : Char) = '-' || isDigitC lbrace) = true) from by decide),
        if_neg (show (lbrace : Char) ≠ 'n' from by decide),
        if_neg (show (lbrace : Char) ≠ 't' from by decide),
        if_neg (show (lbrace : Char) ≠ 'f' from by decide),
        if_neg (show (lbrace : Char) ≠ '"' from by decide),
        if_neg (show (lbrace : Char) ≠ '[' from by decide),
        if_pos trivial]
      obtain ⟨X, hdx⟩ := printEntries_head g (d + 1) (k1, v1) est
      have hsk : skipWS (g.openG (d + 1) ++
          (printEntriesG g (d + 1) ((k1, v1) :: est) ++ (g.closeG d ++ (rbrace :: rest)))) =
          printEntriesG g (d + 1) ((k1, v1) :: est) ++ (g.closeG d ++ (rbrace :: rest)) := by
        simp only [skipWS_ws_append _ _ (hg.1 (d + 1)), hdx, List.cons_append]
        rw [skipWS_cons_nonws (show isWS '"' = false from by decide)]
      rw [hsk, hdx, List.cons_append]
      simp only []
      rw [if_neg (show ('"' : Char) ≠ rbrace from by decide)]
      have hpv : ∀ p ∈ (k1, v1) :: est, ∀ rest', goodRestB rest' = true →
          parseVal f (printG g (d + 1) p.2 ++ rest') = .ok (p.2, rest') := by
        intro p hp rest' hr'
        have hwfp : wfB p.2 = true := by
          rcases List.mem_cons.mp hp with rfl | hp2
          · exact (wfObj_head hwo).2.1
          · exact wfObj_mem (wfObj_head hwo).2.2 p hp2
        exact ihm p hp hwfp (d + 1) rest' f hr'
          (le_trans (fsizeObj_mem p hp) (by omega))
      have hobj2 := parseObjRest_print g hg (parseVal f) (d + 1) ((k1, v1) :: est) (by simp) hpv f
        (le_trans (fsizeObj_len _) (by omega)) (g.closeG d) (hg.2.2.1 d) rest hrest []
      rw [← List.cons_append, ← hdx, hobj2]
      rw [objSetAll_eq hwo [] (fun p _ => rfl)]
      rw [List.nil_append]

theorem fsize_le_len (g : Gaps) : ∀ v d, fsize v ≤ (printG g d v).length := by
  intro v
  induction v using Json.strongInd with
  | hnull => intro d; simp [printG, fsize]
  | hbool b => intro d; cases b <;> simp [printG, fsize]
  | hnum n =>
    intro d
    have h1 := natDigits_ne_nil n.natAbs
    have h2 : 0 < (natDigits n.natAbs).length := List.length_pos.mpr h1
    rw [show printG g d (.numInt n) = printInt n from rfl,
      show fsize (.numInt n) = 1 from rfl, printInt]
    by_cases hneg : n < 0 <;> simp [hneg, List.length_append] <;> omega
  | hflt q =>
    intro d
    rw [show printG g d (.numFloat q) = printFloat q from rfl,
      show fsize (.numFloat q) = 1 from rfl]
    simp only [printFloat]
    simp [List.length_append]
    omega
  | hstr s =>
    intro d
    rw [show printG g d (.str s) = '"' :: (escStr s.data ++ ['"']) from rfl,
      show fsize (.str s) = 1 from rfl]
    simp
  | harr es ihm =>
    have key : ∀ (l : List Json), (∀ e ∈ l, ∀ d, fsize e ≤ (printG g d e).length) →
        ∀ d, l ≠ [] → fsizeList l ≤ (printItemsG g d l).length + 1 := by
      intro l
      induction l with
      | nil => intro _ d h; exact absurd rfl h
      | cons a t ihl =>
        intro hmem d _
        cases t with
        | nil =>
          rw [show printItemsG g d [a] = printG g d a from rfl,
            show fsizeList [a] = 1 + fsize a + 0 from rfl]
          have := hmem a (List.mem_cons_self a []) d
          omega
        | cons b t2 =>
          rw [show printItemsG g d (a :: b :: t2) =
            printG g d a ++ ',' :: (g.sepG d ++ printItemsG g d (b :: t2)) from rfl,
            show fsizeList (a :: b :: t2) = 1 + fsize a + fsizeList (b :: t2) from rfl]
          have h1 := hmem a (List.mem_cons_self a _) d
          have h2 := ihl (fun e he => hmem e (List.mem_cons_of_mem _ he)) d (by simp)
          simp only [List.length_append, List.length_cons]
          omega
    intro d
    cases es with
    | nil => simp [printG, fsize, fsizeList]
    | cons e est =>
      rw [show printG g d (.arr (e :: est)) = '[' :: (g.openG (d + 1) ++
        printItemsG g (d + 1) (e :: est) ++ g.closeG d ++ [']']) from rfl,
        show fsize (.arr (e :: est)) = 1 + fsizeList (e :: est) from rfl]
      have := key (e :: est) (fun e' he' => ihm e' he') (d + 1) (by simp)
      simp only [List.length_cons, List.length_append]
      simp at this ⊢
      omega
  | hobj es ihm =>
    have key : ∀ (l : List (String × Json)),
        (∀ p ∈ l, ∀ d, fsize p.2 ≤ (printG g d p.2).length) →
        ∀ d, l ≠ [] → fsizeObj l ≤ (printEntriesG g d l).length + 1 := by
      intro l
      induction l with
      | nil => intro _ d h; exact absurd rfl h
      | cons a t ihl =>
        obtain ⟨k, v⟩ := a
        intro hmem d _
        cases t with
        | nil =>
          rw [show printEntriesG g d [(k, v)] =
            '"' :: (escStr k.data ++ '"' :: ':' :: (g.colonG ++ printG g d v)) from rfl,
            show fsizeObj [(k, v)] = 1 + fsize v + 0 from rfl]
          have h1 : fsize v ≤ (printG g d v).length := hmem (k, v) (List.mem_cons_self _ []) d
          simp only [List.length_cons, List.length_append]
          omega
        | cons b t2 =>
          rw [show printEntriesG g d ((k, v) :: b :: t2) =
            ('"' :: (escStr k.data ++ '"' :: ':' :: (g.colonG ++ printG g d v))) ++
              ',' :: (g.sepG d ++ printEntriesG g d (b :: t2)) from rfl,
            show fsizeObj ((k, v) :: b :: t2) = 1 + fsize v + fsizeObj (b :: t2) from rfl]
          have h1 : fsize v ≤ (printG g d v).length := hmem (k, v) (List.mem_cons_self _ _) d
          have h2 := ihl (fun p hp => hmem p (List.mem_cons_of_mem _ hp)) d (by simp)
          simp only [List.length_append, List.length_cons]
          omega
    intro d
    cases es with
    | nil => simp [printG, fsize, fsizeObj]
    | cons kv est =>
      rw [show printG g d (.obj (kv :: est)) = lbrace :: (g.openG (d + 1) ++
        printEntriesG g (d + 1) (kv :: est) ++ g.closeG d ++ [rbrace]) from rfl,
        show fsize (.obj (kv :: est)) = 1 + fsizeObj (kv :: est) from rfl]
      have := key (kv :: est) (fun p hp => ihm p hp) (d + 1) (by simp)
      simp only [List.length_cons, List.length_append]
      simp at this ⊢
      omega

theorem parse_printG (g : Gaps) (hg : gapsWS g) (v : Json) (hwf : wfB v = true) :
    Json.parse (String.mk (printG g 0 v)) = .ok v := by
  have hrt := parseVal_printG g hg v hwf 0 [] ((printG g 0 v).length + 1) rfl
    (le_trans (fsize_le_len g v 0) (by omega))
  rw [List.append_nil] at hrt
  have hsk : skipWS (printG g 0 v) = printG g 0 v := by
    obtain ⟨c, t, hct, hws, _, _⟩ := printG_head g 0 v
    rw [hct, skipWS_cons_nonws hws]
  rw [Json.parse]
  have hdata : (String.mk (printG g 0 v)).data = printG g 0 v := rfl
  simp only [hdata, hsk, hrt]
  rfl

theorem parse_dump (v : Json) (hwf : wfB v = true) : Json.parse (Json.dump v) = .ok v :=
  parse_printG compactGaps gapsWS_compact v hwf

theorem parse_dumpIndent (w : Nat) (v : Json) (hwf : wfB v = true) :
    Json.parse (Json.dumpIndent w v) = .ok v := by
  rw [Json.dumpIndent]
  by_cases hw : w = 0
  · rw [if_pos hw]
    exact parse_dump v hwf
  · rw [if_neg hw]
    exact parse_printG (prettyGaps w) (gapsWS_pretty w) v hwf

/-! ## The parser and the builders produce only well-formed trees -/

theorem den_dvd_pow_self : ∀ d k : Nat, d ∣ 10 ^ k → d ∣ 10 ^ d := by
  intro d
  induction d using Nat.strong_induction_on with
  | _ d ih =>
    intro k h
    rcases Nat.eq_zero_or_pos d with hd0 | hdpos
    · subst hd0
      have h1 := Nat.eq_zero_of_zero_dvd h
      have h2 : 0 < 10 ^ k := pow_pos (by norm_num) k
      omega
    by_cases hd1 : d = 1
    · subst hd1; exact one_dvd _
    have hp : d.minFac.Prime := Nat.minFac_prime hd1
    have hpd : d.minFac ∣ d := Nat.minFac_dvd d
    have hp10 : d.minFac ∣ 10 := hp.dvd_of_dvd_pow (hpd.trans h)
    have hp2 : 2 ≤ d.minFac := hp.two_le
    have hdm : d = d.minFac * (d / d.minFac) := (Nat.mul_div_cancel' hpd).symm
    have hmd : d / d.minFac ∣ d := Dvd.intro_left d.minFac hdm.symm
    have hmlt : d / d.minFac < d := Nat.div_lt_self hdpos (by omega)
    have ihm : d / d.minFac ∣ 10 ^ (d / d.minFac) := ih _ hmlt k (hmd.trans h)
    have hm1d : d / d.minFac + 1 ≤ d := by
      have h1 : d / d.minFac ≤ d / 2 := Nat.div_le_div_left hp2 (by omega)
      have h2 : d / 2 < d := Nat.div_lt_self hdpos (by omega)
      omega
    have hstep : d ∣ 10 ^ (d / d.minFac + 1) := by
      calc d = d.minFac * (d / d.minFac) := hdm
        _ ∣ 10 * 10 ^ (d / d.minFac) := mul_dvd_mul hp10 ihm
        _ = 10 ^ (d / d.minFac + 1) := by ring
    exact hstep.trans (pow_dvd_pow 10 hm1d)

theorem dyadic_wf (q : Rat) (k : Nat) (h : q.den ∣ 2 ^ k) : wfB (.numFloat q) = true := by
  have h10 : q.den ∣ 10 ^ k := h.trans (pow_dvd_pow_of_dvd (by norm_num) k)
  have hs := den_dvd_pow_self q.den k h10
  simp [wfB, hs]

theorem mkFloat_wf (neg : Bool) (mant fracLen : Nat) (e : Int) :
    wfB (.numFloat (mkFloat neg mant fracLen e)) = true := by
  have h1 : ((mkFloat neg mant fracLen e).den : Int) ∣ (10 : Int) ^ (fracLen + (-e).toNat) := by
    rw [mkFloat]
    exact Rat.den_dvd _ _
  have h2 : (mkFloat neg mant fracLen e).den ∣ 10 ^ (fracLen + (-e).toNat) := by
    exact_mod_cast h1
  have hs := den_dvd_pow_self _ _ h2
  simp [wfB, hs]

theorem finishNum_wf (isF neg : Bool) (mant fl : Nat) (s : List Char) (v : Json) (r : List Char)
    (h : finishNum isF neg mant fl s = .ok (v, r)) : wfB v = true := by
  cases s with
  | nil =>
    rw [finishNum] at h
    simp only [Except.ok.injEq, Prod.mk.injEq] at h
    obtain ⟨h1, h2⟩ := h
    subst h1
    cases isF with
    | false => rfl
    | true => exact mkFloat_wf neg mant fl 0
  | cons c t =>
    rw [finishNum] at h
    split at h
    · split at h
      · simp only [Except.ok.injEq, Prod.mk.injEq] at h
        obtain ⟨h1, h2⟩ := h
        subst h1
        exact mkFloat_wf _ _ _ _
      · simp at h
    · simp only [Except.ok.injEq, Prod.mk.injEq] at h
      obtain ⟨h1, h2⟩ := h
      subst h1
      cases isF with
      | false => rfl
      | true => exact mkFloat_wf neg mant fl 0

theorem parseNum_wf (s : List Char) (v : Json) (r : List Char)
    (h : parseNum s = .ok (v, r)) : wfB v = true := by
  simp only [parseNum] at h
  split at h
  · simp at h
  · split at h
    · exact finishNum_wf _ _ _ _ _ _ _ h
    · split at h
      · split at h
        · simp at h
        · exact finishNum_wf _ _ _ _ _ _ _ h
      · exact finishNum_wf _ _ _ _ _ _ _ h

theorem hasKeyB_objSet (es : List (String × Json)) (k k2 : String) (v : Json) :
    hasKeyB (objSet es k v) k2 = (hasKeyB es k2 || decide (k = k2)) := by
  induction es with
  | nil => simp [objSet, hasKeyB]
  | cons p t ihp =>
    obtain ⟨pk, pw⟩ := p
    by_cases hk : pk = k
    · subst hk
      cases hdec : decide (pk = k2) <;> simp [objSet, hasKeyB, hdec]
    · rw [show objSet ((pk, pw) :: t) k v = (pk, pw) :: objSet t k v from by simp [objSet, hk]]
      rw [show hasKeyB ((pk, pw) :: objSet t k v) k2 =
        (decide (pk = k2) || hasKeyB (objSet t k v) k2) from by simp [hasKeyB]]
      rw [show hasKeyB ((pk, pw) :: t) k2 = (decide (pk = k2) || hasKeyB t k2) from by
        simp [hasKeyB]]
      rw [ihp, Bool.or_assoc]

theorem objSet_wf (es : List (String × Json)) (k : String) (v : Json)
    (hes : wfObjB es = true) (hv : wfB v = true) : wfObjB (objSet es k v) = true := by
  induction es with
  | nil => simp [objSet, wfObjB, hasKeyB, hv]
  | cons p t ihp =>
    obtain ⟨pk, pw⟩ := p
    rw [show wfObjB ((pk, pw) :: t) = (!(hasKeyB t pk) && wfB pw && wfObjB t) from rfl] at hes
    simp only [Bool.and_eq_true, Bool.not_eq_true'] at hes
    obtain ⟨⟨h1, h2⟩, h3⟩ := hes
    by_cases hk : pk = k
    · subst hk
      rw [show objSet ((pk, pw) :: t) pk v = (pk, v) :: t from by simp [objSet]]
      rw [show wfObjB ((pk, v) :: t) = (!(hasKeyB t pk) && wfB v && wfObjB t) from rfl]
      simp [h1, h3, hv]
    · have hk2 : ¬ k = pk := fun hh => hk hh.symm
      rw [show objSet ((pk, pw) :: t) k v = (pk, pw) :: objSet t k v from by simp [objSet, hk]]
      rw [show wfObjB ((pk, pw) :: objSet t k v) =
        (!(hasKeyB (objSet t k v) pk) && wfB pw && wfObjB (objSet t k v)) from rfl]
      simp [hasKeyB_objSet, h1, h2, hk2, ihp h3]

theorem parseArr_wf (pv : List Char → Except Err (Json × List Char))
    (hpv : ∀ s v r, pv s = .ok (v, r) → wfB v = true) :
    ∀ fuel s vs r, parseArr pv fuel s = .ok (vs, r) → wfListB vs = true := by
  intro fuel
  induction fuel with
  | zero =>
    intro s vs r h
    simp [parseArr] at h
  | succ n ih =>
    intro s vs r h
    rw [parseArr] at h
    split at h
    · simp at h
    · rename_i v r1 heq
      split at h
      · simp only [Except.ok.injEq, Prod.mk.injEq] at h
        obtain ⟨h1, h2⟩ := h
        subst h1
        rw [show wfListB [v] = (wfB v && wfListB []) from rfl]
        simp [hpv _ _ _ heq, wfListB]
      · split at h
        · rename_i r2 heq2 vs2 r3 heq3
          simp only [Except.ok.injEq, Prod.mk.injEq] at h
          obtain ⟨h1, h2⟩ := h
          subst h1
          rw [show wfListB (v :: vs2) = (wfB v && wfListB vs2) from rfl]
          simp [hpv _ _ _ heq, ih _ _ _ heq3]
        · simp at h
      · simp at h

theorem parseObjRest_wf (pv : List Char → Except Err (Json × List Char))
    (hpv : ∀ s v r, pv s = .ok (v, r) → wfB v = true) :
    ∀ fuel s acc es r, wfObjB acc = true → parseObjRest pv fuel s acc = .ok (es, r) →
    wfObjB es = true := by
  intro fuel
  induction fuel with
  | zero =>
    intro s acc es r hacc h
    simp [parseObjRest] at h
  | succ n ih =>
    intro s acc es r hacc h
    match s with
    | [] =>
      rw [parseObjRest] at h
      · simp at h
      · intro r0 hh
        cases hh
    | c :: t =>
      by_cases hc : c = '"'
      swap
      · rw [parseObjRest] at h
        · simp at h
        · intro r0 hh
          injection hh with h1 h2
          exact hc h1
      subst hc
      rw [parseObjRest] at h
      split at h
      · simp at h
      · rename_i kcs r1 heq1
        split at h
        · rename_i r2 heq2
          split at h
          · simp at h
          · rename_i v r3 heq3
            split at h
            · rename_i c4 r4 heq4
              split at h
              · simp only [Except.ok.injEq, Prod.mk.injEq] at h
                obtain ⟨h1, h2⟩ := h
                subst h1
                exact objSet_wf acc (String.mk kcs) v hacc (hpv _ _ _ heq3)
              · split at h
                · exact ih _ _ _ _ (objSet_wf acc (String.mk kcs) v hacc (hpv _ _ _ heq3)) h
                · simp at h
            · simp at h
        · simp at h

theorem parseNullLit_wf (s : List Char) (v : Json) (r : List Char)
    (h : parseNullLit s = .ok (v, r)) : wfB v = true := by
  rw [parseNullLit.eq_def] at h
  split at h
  · simp only [Except.ok.injEq, Prod.mk.injEq] at h
    obtain ⟨h1, h2⟩ := h
    subst h1
    rfl
  · simp at h

theorem parseTrueLit_wf (s : List Char) (v : Json) (r : List Char)
    (h : parseTrueLit s = .ok (v, r)) : wfB v = true := by
  rw [parseTrueLit.eq_def] at h
  split at h
  · simp only [Except.ok.injEq, Prod.mk.injEq] at h
    obtain ⟨h1, h2⟩ := h
    subst h1
    rfl
  · simp at h

theorem parseFalseLit_wf (s : List Char) (v : Json) (r : List Char)
    (h : parseFalseLit s = .ok (v, r)) : wfB v = true := by
  rw [parseFalseLit.eq_def] at h
  split at h
  · simp only [Except.ok.injEq, Prod.mk.injEq] at h
    obtain ⟨h1, h2⟩ := h
    subst h1
    rfl
  · simp at h

theorem parseVal_wf : ∀ fuel s v r, parseVal fuel s = .ok (v, r) → wfB v = true := by
  intro fuel
  induction fuel with
  | zero =>
    intro s v r h
    simp [parseVal] at h
  | succ n ih =>
    intro s v r h
    match s with
    | [] =>
      rw [parseVal] at h
      simp at h
    | c :: r0 =>
      rw [parseVal] at h
      split at h
      · exact parseNum_wf _ _ _ h
      · split at h
        · exact parseNullLit_wf _ _ _ h
        · split at h
          · exact parseTrueLit_wf _ _ _ h
          · split at h
            · exact parseFalseLit_wf _ _ _ h
            · split at h
              · split at h
                · rename_i cs r2 heq
                  simp only [Except.ok.injEq, Prod.mk.injEq] at h
                  obtain ⟨h1, h2⟩ := h
                  subst h1
                  rfl
                · simp at h
              · split at h
                · split at h
                  · rename_i r2 heq
                    simp only [Except.ok.injEq, Prod.mk.injEq] at h
                    obtain ⟨h1, h2⟩ := h
                    subst h1
                    rfl
                  · split at h
                    · rename_i vs r2 heq
                      simp only [Except.ok.injEq, Prod.mk.injEq] at h
                      obtain ⟨h1, h2⟩ := h
                      subst h1
                      rw [show wfB (.arr vs) = wfListB vs from rfl]
                      exact parseArr_wf (parseVal n) (fun s2 v2 r2 hh => ih s2 v2 r2 hh)
                        n _ vs _ heq
                    · simp at h
                · split at h
                  · split at h
                    · simp at h
                    · split at h
                      · simp only [Except.ok.injEq, Prod.mk.injEq] at h
                        obtain ⟨h1, h2⟩ := h
                        subst h1
                        rfl
                      · split at h
                        · rename_i es2 r3 heq
                          simp only [Except.ok.injEq, Prod.mk.injEq] at h
                          obtain ⟨h1, h2⟩ := h
                          subst h1
                          rw [show wfB (.obj es2) = wfObjB es2 from rfl]
                          exact parseObjRest_wf (parseVal n) (fun s2 v2 r2 hh => ih s2 v2 r2 hh)
                            n _ [] es2 _ rfl heq
                        · simp at h
                  · simp at h

theorem parse_wf (t : String) (v : Json) (h : Json.parse t = .ok v) : wfB v = true := by
  simp only [Json.parse] at h
  split at h
  · simp at h
  · rename_i v2 r heq
    split at h
    · simp only [Except.ok.injEq] at h
      subst h
      exact parseVal_wf _ _ _ _ heq
    · simp at h

theorem wfListB_append (es : List Json) (v : Json) (h1 : wfListB es = true)
    (h2 : wfB v = true) : wfListB (es ++ [v]) = true := by
  induction es with
  | nil => simpa [wfListB]
  | cons e t iht =>
    rw [show wfListB (e :: t) = (wfB e && wfListB t) from rfl] at h1
    simp only [Bool.and_eq_true] at h1
    rw [List.cons_append, show wfListB (e :: (t ++ [v])) = (wfB e && wfListB (t ++ [v])) from rfl]
    simp [h1.1, iht h1.2]

theorem Built.wf (v : Json) (h : Built v) : wfB v = true := by
  induction h with
  | null => rfl
  | bool b => rfl
  | int n => rfl
  | float q k hd => exact dyadic_wf q k hd
  | str s => rfl
  | arrNil => rfl
  | arrPush es v2 ha hv iha ihv => exact wfListB_append es v2 iha ihv
  | objNil => rfl
  | setKey es k v2 ho hv iho ihv => exact objSet_wf es k v2 iho ihv

/-! ## Lemmas about the enum, aggregate and container codecs -/

theorem find_snd_of_mem {E : Type} [DecidableEq E] (l : List (String × E)) (nm : String) (v : E)
    (hnd : (l.map Prod.snd).Nodup) (hm : (nm, v) ∈ l) :
    l.find? (fun p => decide (p.2 = v)) = some (nm, v) := by
  induction l with
  | nil => cases hm
  | cons a t ih =>
    obtain ⟨ak, av⟩ := a
    rw [List.map_cons, List.nodup_cons] at hnd
    by_cases hv : av = v
    · subst hv
      rw [List.find?_cons_of_pos _ (by simp)]
      rcases List.mem_cons.mp hm with heq | hm2
      · rw [heq]
      · exfalso
        exact hnd.1 (by simpa using List.mem_map_of_mem Prod.snd hm2)
    · rw [List.find?_cons_of_neg _ (by simp [hv])]
      apply ih hnd.2
      rcases List.mem_cons.mp hm with heq | hm2
      · exfalso
        apply hv
        have := congrArg Prod.snd heq
        simpa using this.symm
      · exact hm2

theorem find_fst_of_mem {E : Type} (l : List (String × E)) (nm : String) (v : E)
    (hnd : (l.map Prod.fst).Nodup) (hm : (nm, v) ∈ l) :
    l.find? (fun p => decide (p.1 = nm)) = some (nm, v) := by
  induction l with
  | nil => cases hm
  | cons a t ih =>
    obtain ⟨ak, av⟩ := a
    rw [List.map_cons, List.nodup_cons] at hnd
    by_cases hk : ak = nm
    · subst hk
      rw [List.find?_cons_of_pos _ (by simp)]
      rcases List.mem_cons.mp hm with heq | hm2
      · rw [heq]
      · exfalso
        exact hnd.1 (by simpa using List.mem_map_of_mem Prod.fst hm2)
    · rw [List.find?_cons_of_neg _ (by simp [hk])]
      apply ih hnd.2
      rcases List.mem_cons.mp hm with heq | hm2
      · exfalso
        apply hk
        have := congrArg Prod.fst heq
        simpa using this.symm
      · exact hm2

theorem exceptMapEntries_keys {α : Type} (f : Json → Except Err α) :
    ∀ (es : List (String × Json)) (m : List (String × α)),
    exceptMapEntries f es = .ok m → m.map Prod.fst = es.map Prod.fst := by
  intro es
  induction es with
  | nil =>
    intro m h
    simp only [exceptMapEntries, Except.ok.injEq] at h
    subst h
    rfl
  | cons p t ih =>
    obtain ⟨k, jv⟩ := p
    intro m h
    rw [exceptMapEntries] at h
    split at h
    · simp at h
    · rename_i b heq
      split at h
      · simp at h
      · rename_i bs heq2
        simp only [Except.ok.injEq] at h
        subst h
        simp [ih _ heq2]

theorem foldl_objSet_eq {T : Type} (v : T) :
    ∀ (fields : List (FieldDescriptor T)) (acc : List (String × Json)),
    (∀ f ∈ fields, hasKeyB acc f.name = false) → (fields.map (fun f => f.name)).Nodup →
    fields.foldl (fun es f => objSet es f.name (f.ser v)) acc
      = acc ++ fields.map (fun f => (f.name, f.ser v)) := by
  intro fields
  induction fields with
  | nil =>
    intro acc _ _
    simp
  | cons f fs ih =>
    intro acc hab hnd
    rw [List.map_cons, List.nodup_cons] at hnd
    rw [List.foldl_cons, objSet_append (hab f (List.mem_cons_self _ _))]
    rw [ih (acc ++ [(f.name, f.ser v)]) ?_ hnd.2]
    · simp
    · intro f2 hf2
      rw [hasKeyB_append, Bool.or_eq_false_iff]
      refine ⟨hab f2 (List.mem_cons_of_mem _ hf2), ?_⟩
      have hne : f.name ≠ f2.name := by
        intro hh
        exact hnd.1 (hh ▸ List.mem_map_of_mem (fun f => f.name) hf2)
      simp [hasKeyB, hne]

theorem aggToJson_eq {T : Type} (fields : List (FieldDescriptor T)) (v : T)
    (hnd : (fields.map (fun f => f.name)).Nodup) :
    aggToJson fields v = .obj (fields.map (fun f => (f.name, f.ser v))) := by
  rw [aggToJson, foldl_objSet_eq v fields [] (fun f _ => rfl) hnd]
  rfl

theorem aggFromFields_absent {T : Type} (f : FieldDescriptor T) (fs : List (FieldDescriptor T))
    (es : List (String × Json)) (t : T) (h : objGet es f.name = none) :
    aggFromFields (f :: fs) es t = aggFromFields fs es t := by
  rw [aggFromFields, h]

theorem aggFromFields_present_ok {T : Type} (f : FieldDescriptor T)
    (fs : List (FieldDescriptor T)) (es : List (String × Json)) (t t2 : T) (jv : Json)
    (h : objGet es f.name = some jv) (hd : f.deser jv t = .ok t2) :
    aggFromFields (f :: fs) es t = aggFromFields fs es t2 := by
  simp [aggFromFields, h, hd]

theorem aggFromFields_present_err {T : Type} (f : FieldDescriptor T)
    (fs : List (FieldDescriptor T)) (es : List (String × Json)) (t : T) (jv : Json) (e : Err)
    (h : objGet es f.name = some jv) (hd : f.deser jv t = .error e) :
    aggFromFields (f :: fs) es t = .error e := by
  simp [aggFromFields, h, hd]

theorem aggFromFields_all_absent {T : Type} :
    ∀ (fields : List (FieldDescriptor T)) (es : List (String × Json)) (t : T),
    (∀ f ∈ fields, objGet es f.name = none) → aggFromFields fields es t = .ok t := by
  intro fields
  induction fields with
  | nil =>
    intro es t _
    rfl
  | cons f fs ih =>
    intro es t h
    rw [aggFromFields_absent f fs es t (h f (List.mem_cons_self _ _))]
    exact ih es t (fun f2 hf2 => h f2 (List.mem_cons_of_mem _ hf2))

theorem enumToString_registered {E : Type} [DecidableEq E] (variants : List (String × E))
    (nm : String) (v : E) (hnd : (variants.map Prod.snd).Nodup) (hm : (nm, v) ∈ variants) :
    enumToString variants v = nm := by
  rw [enumToString, find_snd_of_mem variants nm v hnd hm]

theorem enumToString_unregistered {E : Type} [DecidableEq E] (variants : List (String × E))
    (v : E) (h : ∀ p ∈ variants, p.2 ≠ v) : enumToString variants v = "Unknown" := by
  rw [enumToString, List.find?_eq_none.mpr (fun p hp => by simp [h p hp])]

theorem enumFromString_registered {E : Type} (variants : List (String × E))
    (nm : String) (v : E) (hnd : (variants.map Prod.fst).Nodup) (hm : (nm, v) ∈ variants) :
    enumFromString variants nm = .ok v := by
  rw [enumFromString, find_fst_of_mem variants nm v hnd hm]

theorem enumFromString_unregistered {E : Type} (variants : List (String × E))
    (s : String) (h : ∀ p ∈ variants, p.1 ≠ s) :
    enumFromString variants s = .error (.invalidEnumValue s) := by
  rw [enumFromString, List.find?_eq_none.mpr (fun p hp => by simp [h p hp])]

theorem optCodec_fromJson_notNull {α : Type} (c : Codec α) (j : Json) (a : α)
    (h1 : j.isNull = false) (h2 : c.fromJson j = .ok a) :
    (optCodec c).fromJson j = .ok (some a) := by
  simp [optCodec, h1, h2]

/-! ## The claims -/

/-- C1: from_json on an object assigns a declared field only when the object
contains a key equal to the field's name; a field whose key is absent
retains the default-constructed value, and such absence is not an error; in
particular an object holding only x deserializes into the two-field Point
aggregate with x assigned and y left at its default, with no error. -/
theorem claim_c1_absent_fields_keep_defaults :
    (∀ (T : Type) (f : FieldDescriptor T) (fs : List (FieldDescriptor T))
        (es : List (String × Json)) (t : T), objGet es f.name = none →
        aggFromFields (f :: fs) es t = aggFromFields fs es t) ∧
    (∀ (T : Type) (fields : List (FieldDescriptor T)) (es : List (String × Json)) (t : T),
        (∀ f ∈ fields, objGet es f.name = none) → aggFromFields fields es t = .ok t) ∧
    fromJsonString pointCodec "\x7b\"x\":50\x7d" = .ok ⟨50, 0⟩ :=
  ⟨fun _ f fs es t h => aggFromFields_absent f fs es t h,
   fun _ fields es t h => aggFromFields_all_absent fields es t h,
   rfl⟩

theorem claim_c1_witness :
    aggFromFields pointFields [] Point.init = .ok Point.init :=
  claim_c1_absent_fields_keep_defaults.2.1 Point pointFields [] Point.init (fun _ _ => rfl)

/-- C2: every Value produced by the Parser or by the builder operations
round-trips: parsing its compact dump and parsing its pretty dump (any
indent width) both return the identical tree, variant for variant, with the
integral-versus-fractional distinction and object key order preserved by the
structural equality. -/
theorem claim_c2_parse_dump_roundtrip (v : Json)
    (hsrc : (∃ t, Json.parse t = .ok v) ∨ Built v) (w : Nat) :
    Json.parse (Json.dump v) = .ok v ∧ Json.parse (Json.dumpIndent w v) = .ok v := by
  have hwf : wfB v = true := by
    rcases hsrc with ⟨t, ht⟩ | hb
    · exact parse_wf t v ht
    · exact Built.wf v hb
  exact ⟨parse_dump v hwf, parse_dumpIndent w v hwf⟩

theorem claim_c2_witness :
    Json.parse (Json.dump (Json.obj [("a", Json.numInt 1), ("b", Json.numFloat (Rat.divInt 1 2))]))
      = .ok (Json.obj [("a", Json.numInt 1), ("b", Json.numFloat (Rat.divInt 1 2))]) ∧
    Json.parse (Json.dumpIndent 2
        (Json.obj [("a", Json.numInt 1), ("b", Json.numFloat (Rat.divInt 1 2))]))
      = .ok (Json.obj [("a", Json.numInt 1), ("b", Json.numFloat (Rat.divInt 1 2))]) :=
  claim_c2_parse_dump_roundtrip _ (Or.inl ⟨"\x7b\"a\":1,\"b\":0.5\x7d", rfl⟩) 2

/-- C3: a registered enum serializes a registered variant to the JSON string
holding its registered name, deserializes a string by exact match against
the registered names, and fails with InvalidEnumValue carrying the offending
string when no name matches; concretely for the Priority enum registered as
Low, Medium, High: the third variant serializes to the string High, that
string deserializes back, and the string Unknown is rejected. -/
theorem claim_c3_enum_exact_match :
    (∀ (E : Type) [DecidableEq E] (variants : List (String × E)) (nm : String) (v : E),
        (variants.map Prod.snd).Nodup → (nm, v) ∈ variants →
        (enumCodec variants).toJson v = .str nm) ∧
    (∀ (E : Type) [DecidableEq E] (variants : List (String × E)) (nm : String) (v : E),
        (variants.map Prod.fst).Nodup → (nm, v) ∈ variants →
        (enumCodec variants).fromJson (.str nm) = .ok v) ∧
    (∀ (E : Type) [DecidableEq E] (variants : List (String × E)) (s : String),
        (∀ p ∈ variants, p.1 ≠ s) →
        (enumCodec variants).fromJson (.str s) = .error (.invalidEnumValue s)) ∧
    priorityCodec.toJson 2 = .str "High" ∧
    priorityCodec.fromJson (.str "High") = .ok 2 ∧
    priorityCodec.fromJson (.str "Unknown") = .error (.invalidEnumValue "Unknown") := by
  refine ⟨?_, ?_, ?_, rfl, rfl, rfl⟩
  · intro E _ variants nm v hnd hm
    show Json.str (enumToString variants v) = Json.str nm
    rw [enumToString_registered variants nm v hnd hm]
  · intro E _ variants nm v hnd hm
    show enumFromString variants nm = Except.ok v
    exact enumFromString_registered variants nm v hnd hm
  · intro E _ variants s h
    show enumFromString variants s = Except.error (.invalidEnumValue s)
    exact enumFromString_unregistered variants s h

theorem claim_c3_witness :
    priorityCodec.toJson 1 = .str "Medium" ∧ priorityCodec.fromJson (.str "Medium") = .ok 1 :=
  ⟨claim_c3_enum_exact_match.1 Int priorityVariants "Medium" 1 (by decide) (by decide),
   claim_c3_enum_exact_match.2.1 Int priorityVariants "Medium" 1 (by decide) (by decide)⟩

/-- C4: the primitive codecs fail with TypeMismatch whenever the input
variant does not correspond to the target type; concretely deserializing the
text of a string literal as an integer fails with TypeMismatch, while
deserializing an object with no matching keys into Person neither crashes
nor fails: every field stays at its default. -/
theorem claim_c4_primitive_type_mismatch :
    (∀ j : Json, (∀ b, j ≠ .bool b) → boolCodec.fromJson j = .error .typeMismatch) ∧
    (∀ j : Json, (∀ n, j ≠ .numInt n) → (∀ q, j ≠ .numFloat q) →
        intCodec.fromJson j = .error .typeMismatch) ∧
    (∀ j : Json, (∀ n, j ≠ .numInt n) → (∀ q, j ≠ .numFloat q) →
        floatCodec.fromJson j = .error .typeMismatch) ∧
    (∀ j : Json, (∀ s, j ≠ .str s) → strCodec.fromJson j = .error .typeMismatch) ∧
    fromJsonString intCodec "\"not a number\"" = .error .typeMismatch ∧
    fromJsonString personCodec "\x7b\"invalid\":\"json\"\x7d" = .ok ⟨"", 0, []⟩ := by
  refine ⟨?_, ?_, ?_, ?_, rfl, rfl⟩
  · intro j h
    cases j <;> first | rfl | exact absurd rfl (h _)
  · intro j h1 h2
    cases j <;> first | rfl | exact absurd rfl (h1 _) | exact absurd rfl (h2 _)
  · intro j h1 h2
    cases j <;> first | rfl | exact absurd rfl (h1 _) | exact absurd rfl (h2 _)
  · intro j h
    cases j <;> first | rfl | exact absurd rfl (h _)

theorem claim_c4_witness :
    intCodec.fromJson (Json.str "not a number") = .error .typeMismatch ∧
    boolCodec.fromJson Json.null = .error .typeMismatch :=
  ⟨claim_c4_primitive_type_mismatch.2.1 (Json.str "not a number")
      (fun n => by simp) (fun q => by simp),
   claim_c4_primitive_type_mismatch.1 Json.null (fun b => by simp)⟩

/-- C5: deserializing the array 1,2,3,4,5 into an integer sequence yields
the five elements in input order; the string-keyed map combinator converts
to and from an object key-for-key, and a map deserialized from an object
re-serializes with its keys in the object's original insertion order. -/
theorem claim_c5_sequence_and_map_order :
    fromJsonString (vecCodec intCodec) "[1,2,3,4,5]" = .ok [1, 2, 3, 4, 5] ∧
    (∀ (α : Type) (c : Codec α) (es : List (String × Json)) (m : List (String × α)),
        (mapCodec c).fromJson (.obj es) = .ok m →
        (mapCodec c).toJson m = .obj (m.map (fun p => (p.1, c.toJson p.2))) ∧
        m.map Prod.fst = es.map Prod.fst) ∧
    fromJsonString (mapCodec intCodec) "\x7b\"b\":2,\"a\":1\x7d"
      = .ok [("b", (2 : Int)), ("a", 1)] ∧
    toJsonString (mapCodec intCodec) [("b", (2 : Int)), ("a", 1)] = "\x7b\"b\":2,\"a\":1\x7d" :=
  ⟨rfl, fun _ c es m h => ⟨rfl, exceptMapEntries_keys c.fromJson es m h⟩, rfl, rfl⟩

theorem claim_c5_witness :
    (mapCodec intCodec).toJson [("b", (2 : Int)), ("a", 1)]
      = .obj ([("b", (2 : Int)), ("a", 1)].map (fun p => (p.1, intCodec.toJson p.2))) ∧
    [("b", (2 : Int)), ("a", 1)].map Prod.fst
      = [("b", Json.numInt 2), ("a", Json.numInt 1)].map Prod.fst :=
  claim_c5_sequence_and_map_order.2.1 Int intCodec
    [("b", Json.numInt 2), ("a", Json.numInt 1)] [("b", (2 : Int)), ("a", 1)] rfl

/-- C6: to_json of a registered aggregate builds an object with exactly one
entry per declared field, inserted in declaration order under the declared
name, each value produced by the field's own serializer applied to the
current field value (the declared names being pairwise distinct, as every
registration's are). -/
theorem claim_c6_to_json_field_map (T : Type) (fields : List (FieldDescriptor T)) (v : T)
    (hnd : (fields.map (fun f => f.name)).Nodup) :
    aggToJson fields v = .obj (fields.map (fun f => (f.name, f.ser v))) :=
  aggToJson_eq fields v hnd

theorem claim_c6_witness :
    aggToJson pointFields ⟨3, 4⟩ = .obj (pointFields.map (fun f => (f.name, f.ser ⟨3, 4⟩))) :=
  claim_c6_to_json_field_map Point pointFields ⟨3, 4⟩ (by decide)

/-- C7: with indent absent or zero the dump is the canonical minimal form,
so a text already in that form is reproduced byte for byte by dumping its
parse; concretely the compact object text with keys a and b parses to the
expected tree and dumps back to exactly the same text. -/
theorem claim_c7_compact_dump_canonical :
    (∀ v : Json, Json.dumpIndent 0 v = Json.dump v) ∧
    (∀ v : Json, wfB v = true → ∀ j, Json.parse (Json.dump v) = .ok j →
        Json.dump j = Json.dump v) ∧
    Json.parse "\x7b\"a\":1,\"b\":[1,2,3]\x7d"
      = .ok (.obj [("a", .numInt 1), ("b", .arr [.numInt 1, .numInt 2, .numInt 3])]) ∧
    Json.dump (.obj [("a", .numInt 1), ("b", .arr [.numInt 1, .numInt 2, .numInt 3])])
      = "\x7b\"a\":1,\"b\":[1,2,3]\x7d" := by
  refine ⟨fun v => by simp [Json.dumpIndent], fun v hwf j hj => ?_, rfl, rfl⟩
  have h2 := (parse_dump v hwf).symm.trans hj
  injection h2 with h3
  rw [← h3]

theorem claim_c7_witness :
    Json.dump (Json.arr [Json.numInt 7]) = Json.dump (Json.arr [Json.numInt 7]) :=
  claim_c7_compact_dump_canonical.2.1 (Json.arr [Json.numInt 7]) rfl
    (Json.arr [Json.numInt 7]) rfl

/-- C8: the optional combinator serializes a present value exactly as the
inner codec does and an absent value as Null; on reading, an explicit Null
yields absent, any other value goes through the inner codec and yields
present, and a key absent from a containing object also yields absent, shown
on the Task aggregate whose assignee field is optional. -/
theorem claim_c8_optional_null_or_absent :
    (∀ (α : Type) (c : Codec α) (a : α), (optCodec c).toJson (some a) = c.toJson a) ∧
    (∀ (α : Type) (c : Codec α), (optCodec c).toJson none = .null) ∧
    (∀ (α : Type) (c : Codec α), (optCodec c).fromJson .null = .ok none) ∧
    (∀ (α : Type) (c : Codec α) (j : Json) (a : α), j.isNull = false →
        c.fromJson j = .ok a → (optCodec c).fromJson j = .ok (some a)) ∧
    taskCodec.fromJson (.obj [("title", .str "T")]) = .ok ⟨"T", 0, none⟩ ∧
    taskCodec.fromJson (.obj [("title", .str "T"), ("assignee", .null)]) = .ok ⟨"T", 0, none⟩ :=
  ⟨fun _ _ _ => rfl, fun _ _ => rfl, fun _ _ => rfl,
   fun _ c j a h1 h2 => optCodec_fromJson_notNull c j a h1 h2, rfl, rfl⟩

theorem claim_c8_witness :
    (optCodec strCodec).fromJson (Json.str "Alice") = .ok (some "Alice") :=
  claim_c8_optional_null_or_absent.2.2.2.1 String strCodec (Json.str "Alice") "Alice" rfl rfl

/-- C9: enum serialization is total: a value outside the registered variant
list serializes through the default switch case to the string Unknown, which
no registered name matches (none of the registered names being Unknown), so
serialize-then-deserialize fails with InvalidEnumValue for every
unregistered value while succeeding for every registered one; concretely the
out-of-range Priority value 3 serializes to Unknown and fails to read
back. -/
theorem claim_c9_unregistered_enum_roundtrip :
    (∀ (E : Type) [DecidableEq E] (variants : List (String × E)) (v : E),
        (∀ p ∈ variants, p.2 ≠ v) → (enumCodec variants).toJson v = .str "Unknown") ∧
    (∀ (E : Type) [DecidableEq E] (variants : List (String × E)) (v : E),
        (∀ p ∈ variants, p.2 ≠ v) → (∀ p ∈ variants, p.1 ≠ "Unknown") →
        (enumCodec variants).fromJson ((enumCodec variants).toJson v)
          = .error (.invalidEnumValue "Unknown")) ∧
    (∀ (E : Type) [DecidableEq E] (variants : List (String × E)) (nm : String) (v : E),
        (variants.map Prod.fst).Nodup → (variants.map Prod.snd).Nodup → (nm, v) ∈ variants →
        (enumCodec variants).fromJson ((enumCodec variants).toJson v) = .ok v) ∧
    priorityCodec.toJson 3 = .str "Unknown" ∧
    priorityCodec.fromJson (priorityCodec.toJson 3) = .error (.invalidEnumValue "Unknown") := by
  refine ⟨?_, ?_, ?_, rfl, rfl⟩
  · intro E _ variants v h
    show Json.str (enumToString variants v) = Json.str "Unknown"
    rw [enumToString_unregistered variants v h]
  · intro E _ variants v h hu
    show enumFromString variants (enumToString variants v)
      = Except.error (.invalidEnumValue "Unknown")
    rw [enumToString_unregistered variants v h]
    exact enumFromString_unregistered variants "Unknown" hu
  · intro E _ variants nm v hndf hnds hm
    show enumFromString variants (enumToString variants v) = Except.ok v
    rw [enumToString_registered variants nm v hnds hm]
    exact enumFromString_registered variants nm v hndf hm

theorem claim_c9_witness :
    priorityCodec.fromJson (priorityCodec.toJson 7) = .error (.invalidEnumValue "Unknown") ∧
    priorityCodec.fromJson (priorityCodec.toJson 0) = .ok 0 :=
  ⟨claim_c9_unregistered_enum_roundtrip.2.1 Int priorityVariants 7 (by decide) (by decide),
   claim_c9_unregistered_enum_roundtrip.2.2.1 Int priorityVariants "Low" 0
     (by decide) (by decide) (by decide)⟩

/-- C10: aggregate from_json is atomic: it populates a local
default-constructed value field by field in declaration order, a present
field whose codec succeeds threads the updated value into the remaining
fields, a present field whose codec fails aborts with that error so no
partially-populated value is produced; concretely an object assigning a
string to the integer field x of Point fails with TypeMismatch. -/
theorem claim_c10_from_json_atomic :
    (∀ (T : Type) (f : FieldDescriptor T) (fs : List (FieldDescriptor T))
        (es : List (String × Json)) (t : T) (jv : Json) (e : Err),
        objGet es f.name = some jv → f.deser jv t = .error e →
        aggFromFields (f :: fs) es t = .error e) ∧
    (∀ (T : Type) (f : FieldDescriptor T) (fs : List (FieldDescriptor T))
        (es : List (String × Json)) (t t2 : T) (jv : Json),
        objGet es f.name = some jv → f.deser jv t = .ok t2 →
        aggFromFields (f :: fs) es t = aggFromFields fs es t2) ∧
    fromJsonString pointCodec "\x7b\"x\":\"bad\",\"y\":3\x7d" = .error .typeMismatch :=
  ⟨fun _ f fs es t jv e h hd => aggFromFields_present_err f fs es t jv e h hd,
   fun _ f fs es t t2 jv h hd => aggFromFields_present_ok f fs es t t2 jv h hd,
   rfl⟩

theorem claim_c10_witness :
    aggFromFields pointFields [("x", Json.str "bad"), ("y", Json.numInt 3)] Point.init
      = .error .typeMismatch :=
  claim_c10_from_json_atomic.1 Point
    (mkField intCodec "x" (fun p => p.x) (fun p v => ⟨v, p.y⟩))
    [mkField intCodec "y" (fun p => p.y) (fun p v => ⟨p.x, v⟩)]
    [("x", Json.str "bad"), ("y", Json.numInt 3)] Point.init (Json.str "bad")
    Err.typeMismatch rfl rfl
